import Mathlib

/-! BooleanLogicInterpreter: a shallow embedding of `Interpreter.hpp`.

The interpreter reads one line, splits it into tokens (`tokenize`), builds an
expression tree with two stacks (`generate_tree`), and evaluates the tree
against a symbol table (`evaluate_tree`), printing the result (`execute`).

Conventions of the embedding:

* a `std::string` is a list of characters (`Str`); a Lean `Char` stands for one
  C++ `char`, classified as in the "C" locale;
* a `Node*` is a value of `Node`, whose constructor `null` is `nullptr`;
* a `std::stack` is a list whose head is the top of the stack;
* the members `symbol_table` and the stream `std::cout` are the two fields of
  the state `Interp`, passed explicitly; a thrown `std::runtime_error` is
  `Except.error` carrying the message, and the state at the throw is kept;
* calling `pop()` or `top()` on an empty stack where the source does not guard
  it has no defined behaviour: `generate_tree` returns `none` there.
-/

namespace BooleanLogicInterpreter

/-- A `std::string`, as the list of its characters. -/
abbrev Str := List Char

/-! ## The string constants (`#define`s) -/

def T : Str := "T".toList
def F : Str := "F".toList
def LEFT_BRACKET : Str := "(".toList
def RIGHT_BRACKET : Str := ")".toList
def VAR : Str := "let".toList
def OR : Str := "|".toList
def AND : Str := "&".toList
def NOT : Str := "~".toList
def EQ : Str := "=".toList

/-! ## Character classes of `<cctype>` in the "C" locale -/

/-- Models `std::isspace`: space, `\t`, `\n`, `\v`, `\f`, `\r`. -/
def isspace (c : Char) : Bool := c.toNat == 32 || (9 ≤ c.toNat && c.toNat ≤ 13)

/-- Models `std::isalpha`: `A`-`Z` and `a`-`z`. -/
def isalpha (c : Char) : Bool :=
  (65 ≤ c.toNat && c.toNat ≤ 90) || (97 ≤ c.toNat && c.toNat ≤ 122)

/-- Models `std::isalnum`: a letter or one of `0`-`9`. -/
def isalnum (c : Char) : Bool := isalpha c || (48 ≤ c.toNat && c.toNat ≤ 57)

/-! ## The expression tree -/

/-- Models `Node::Type`. -/
inductive NodeType where
  | NUMBER
  | VARIABLE
  | OPERATOR
  deriving DecidableEq, Repr

/-- A `Node*`: either `nullptr` (`null`) or a pointer to a `Node` with its
`type`, `value`, `left` and `right`. -/
inductive Node where
  | null : Node
  | mk (type : NodeType) (value : Str) (left right : Node) : Node
  deriving DecidableEq, Repr

/-- A `new Node(type, value)`: both children default to `nullptr`. -/
def Node.leaf (type : NodeType) (value : Str) : Node := Node.mk type value Node.null Node.null

/-! ## The predicates on tokens -/

/-- Models `is_sign`: the token is one of the two literal spellings. -/
def is_sign (si : Str) : Bool := si == T || si == F

/-- Models `is_variable`: the first character is a letter and no character fails
`isalnum`. On the empty string `si[0]` is the terminating `'\0'`, not a letter. -/
def is_variable (si : Str) : Bool :=
  (match si with
    | [] => false
    | c :: _ => isalpha c) && si.all isalnum

/-- Models `is_operator`: membership in the set of `AND`, `OR`, `EQ`, `NOT`. -/
def is_operator (si : Str) : Bool := si == AND || si == OR || si == EQ || si == NOT

/-- Models `get_precedence`. -/
def get_precedence (op : Str) : Int :=
  if op = OR then 1
  else if op = AND then 2
  else if op = EQ then 3
  else if op = NOT then 4
  else if op = LEFT_BRACKET ∨ op = RIGHT_BRACKET then 5
  else 0

/-! ## `tokenize` -/

/-- The loop of `tokenize`, on the part `rest` of the line from index `i` on
(so `i + 4 < sz` reads `4 < rest.length`), returning the tokens pushed from
there on. Every iteration advances `i`, so `fuel = rest.length` iterations are
enough. -/
def tokenizeLoop : Nat → Str → List Str
  | 0, _ => []
  | _, [] => []
  | fuel + 1, c :: cs =>
    if isspace c then
      tokenizeLoop fuel cs
    else if 4 < (c :: cs).length ∧ (c :: cs).take 3 = VAR then
      tokenizeLoop fuel ((c :: cs).drop 3)
    else if isalpha c then
      (c :: cs).takeWhile isalnum :: tokenizeLoop fuel ((c :: cs).dropWhile isalnum)
    else
      [c] :: tokenizeLoop fuel cs

/-- Models `tokenize`. -/
def tokenize (s : Str) : List Str := tokenizeLoop s.length s

/-! ## `generate_tree` -/

/-- Models `nodes.empty() ? nullptr : nodes.top(); if (!nodes.empty()) nodes.pop();`:
the popped node (or `nullptr`) and the stack left. -/
def popNode : List Node → Node × List Node
  | [] => (Node.null, [])
  | n :: nodes => (n, nodes)

/-- One reduction as written in the operator branch and in the final loop
(lines 88-93 and 110-115): the right operand is popped unless the operator is
`NOT`, then the left one, and the new operator node is pushed. -/
def reduce (op : Str) (nodes : List Node) : List Node :=
  let r := if op ≠ NOT then popNode nodes else (Node.null, nodes)
  let l := popNode r.2
  Node.mk NodeType.OPERATOR op l.1 r.1 :: l.2

/-- One reduction as written in the `)` branch (lines 101-103): both operands
are popped, whatever the operator. -/
def reduceBracket (op : Str) (nodes : List Node) : List Node :=
  let r := popNode nodes
  let l := popNode r.2
  Node.mk NodeType.OPERATOR op l.1 r.1 :: l.2

/-- The `while` loop of the operator branch (line 87), for the incoming
`token`: returns the two stacks at loop exit. -/
def reduceWhileOperator (token : Str) : List Str → List Node → List Str × List Node
  | [], nodes => ([], nodes)
  | top :: ops, nodes =>
    if is_operator top ∧ get_precedence top ≥ get_precedence token then
      reduceWhileOperator token ops (reduce top nodes)
    else
      (top :: ops, nodes)

/-- The `while` loop of the `)` branch (line 100): returns the two stacks at
loop exit. -/
def reduceWhileBracket : List Str → List Node → List Str × List Node
  | [], nodes => ([], nodes)
  | top :: ops, nodes =>
    if top ≠ LEFT_BRACKET then
      reduceWhileBracket ops (reduceBracket top nodes)
    else
      (top :: ops, nodes)

/-- The final `while (!ops.empty())` loop (line 109): returns the node stack. -/
def reduceAll : List Str → List Node → List Node
  | [], nodes => nodes
  | top :: ops, nodes => reduceAll ops (reduce top nodes)

/-- The body of the `for` loop over the tokens, on the stacks `(ops, nodes)`.
`none`: the unguarded `ops.pop()` of line 106 met an empty stack. -/
def parseToken (token : Str) (ops : List Str) (nodes : List Node) :
    Option (List Str × List Node) :=
  if is_sign token then
    some (ops, Node.leaf NodeType.NUMBER token :: nodes)
  else if is_variable token then
    some (ops, Node.leaf NodeType.VARIABLE token :: nodes)
  else if is_operator token then
    let s := reduceWhileOperator token ops nodes
    some (token :: s.1, s.2)
  else if token = LEFT_BRACKET then
    some (token :: ops, nodes)
  else if token = RIGHT_BRACKET then
    match reduceWhileBracket ops nodes with
    | ([], _) => none
    | (_ :: ops1, nodes1) => some (ops1, nodes1)
  else
    some (ops, nodes)

/-- The `for` loop over the tokens. -/
def parseTokens : List Str → List Str → List Node → Option (List Str × List Node)
  | [], ops, nodes => some (ops, nodes)
  | token :: tokens, ops, nodes =>
    match parseToken token ops nodes with
    | none => none
    | some s => parseTokens tokens s.1 s.2

/-- The parser on a token sequence: the `for` loop, the final reductions and
`nodes.top()`. `none`: undefined behaviour (`ops.pop()` or `nodes.top()` on an
empty stack). -/
def parse (tokens : List Str) : Option Node :=
  match parseTokens tokens [] [] with
  | none => none
  | some s =>
    match reduceAll s.1 s.2 with
    | [] => none
    | top :: _ => some top

/-- Models `generate_tree`. -/
def generate_tree (line : Str) : Option Node := parse (tokenize line)

/-! ## The interpreter state and `evaluate_tree` -/

/-- The mutable state an `Interpreter` works on: its member `symbol_table`
(a finite map, read through `count` and `operator[]`) and what has been written
to `std::cout`. -/
structure Interp where
  symbol_table : Str → Option Str
  cout : Str

/-- Models `symbol_table[key] = value`. -/
def Interp.assign (st : Interp) (key value : Str) : Interp :=
  { st with symbol_table := fun k => if k = key then some value else st.symbol_table k }

/-- Models `std::cout << s`. -/
def Interp.print (st : Interp) (s : Str) : Interp :=
  { st with cout := st.cout ++ s }

/-- Models `is_variable_in_program`. -/
def is_variable_in_program (st : Interp) (si : Str) : Bool :=
  is_variable si && (st.symbol_table si).isSome

/-- The message of the exception thrown for an unbound variable. -/
def undefinedVariable (name : Str) : Str :=
  "Undefined variable: '".toList ++ name ++ "'".toList

/-- The message of the exception thrown for an operator node whose symbol is
none of `=`, `~`, `&`, `|`. -/
def unknownOperator (symbol : Str) : Str :=
  "Unknown operator: '".toList ++ symbol ++ "'".toList

/-- The comparison `evaluate_tree(node->left) == evaluate_tree(node->right) ? T : F`
of line 144, given the two evaluations. C++ leaves the order of the two calls
unspecified; `leftFirst` fixes it. -/
def compareEq (leftFirst : Bool) (evalLeft evalRight : Interp → Except Str Str × Interp)
    (st : Interp) : Except Str Str × Interp :=
  if leftFirst then
    match evalLeft st with
    | (Except.error e, st1) => (Except.error e, st1)
    | (Except.ok l, st1) =>
      match evalRight st1 with
      | (Except.error e, st2) => (Except.error e, st2)
      | (Except.ok r, st2) => (Except.ok (if l = r then T else F), st2)
  else
    match evalRight st with
    | (Except.error e, st1) => (Except.error e, st1)
    | (Except.ok r, st1) =>
      match evalLeft st1 with
      | (Except.error e, st2) => (Except.error e, st2)
      | (Except.ok l, st2) => (Except.ok (if l = r then T else F), st2)

/-- Lines 147-162: the operators other than `EQ`, given the two evaluations;
the left operand is evaluated first, then the right one, also for `NOT`. -/
def applyOperator (value : Str) (evalLeft evalRight : Interp → Except Str Str × Interp)
    (st : Interp) : Except Str Str × Interp :=
  match evalLeft st with
  | (Except.error e, st1) => (Except.error e, st1)
  | (Except.ok lhs, st1) =>
    match evalRight st1 with
    | (Except.error e, st2) => (Except.error e, st2)
    | (Except.ok rhs, st2) =>
      if value = NOT then (Except.ok (if lhs = T then F else T), st2)
      else if value = AND then (Except.ok (if rhs = T ∧ lhs = T then T else F), st2)
      else if value = OR then (Except.ok (if rhs = T ∨ lhs = T then T else F), st2)
      else (Except.error (unknownOperator value), st2)

/-- The assignment of lines 138-141, given the evaluation of the right child:
bind the name to its value, print the name and `": "`, return the value. -/
def assignTo (name : Str) (evalRight : Interp → Except Str Str × Interp)
    (st : Interp) : Except Str Str × Interp :=
  match evalRight st with
  | (Except.error e, st1) => (Except.error e, st1)
  | (Except.ok rhs, st1) => (Except.ok rhs, ((st1.assign name rhs).print name).print ": ".toList)

/-- Models `evaluate_tree`: the value returned or the exception thrown, and the state
afterwards. -/
def evaluate_tree (leftFirst : Bool) : Node → Interp → Except Str Str × Interp
  | Node.null, st => (Except.ok F, st)
  | Node.mk NodeType.NUMBER value _ _, st => (Except.ok value, st)
  | Node.mk NodeType.VARIABLE value _ _, st =>
    if is_variable_in_program st value then
      (Except.ok ((st.symbol_table value).getD []), st)
    else
      (Except.error (undefinedVariable value), st)
  | Node.mk NodeType.OPERATOR value left right, st =>
    if value = EQ then
      match left with
      | Node.mk NodeType.VARIABLE name _ _ =>
        if ¬ is_variable_in_program st name then
          assignTo name (evaluate_tree leftFirst right) st
        else
          compareEq leftFirst (evaluate_tree leftFirst left) (evaluate_tree leftFirst right) st
      | _ => compareEq leftFirst (evaluate_tree leftFirst left) (evaluate_tree leftFirst right) st
    else
      applyOperator value (evaluate_tree leftFirst left) (evaluate_tree leftFirst right) st

/-- Models `execute`: parse the line, evaluate the tree, print the result and a
newline, return `0`. `none`: `generate_tree` has no defined behaviour on the
line. An exception leaves the function before anything more is printed. -/
def execute (leftFirst : Bool) (line : Str) (st : Interp) :
    Option (Except Str Int × Interp) :=
  match generate_tree line with
  | none => none
  | some tree =>
    match evaluate_tree leftFirst tree st with
    | (Except.error e, st1) => some (Except.error e, st1)
    | (Except.ok res, st1) => some (Except.ok 0, (st1.print res).print "\n".toList)

/-- The spelling of a truth value, `T` or `F` (the `... ? T : F` of the source). -/
def literal (v : Bool) : Str := if v then T else F

/-- The interpreter of a fresh session: nothing bound, nothing printed. -/
def Interp.fresh : Interp := { symbol_table := fun _ => none, cout := [] }

/-! ## Predicates used to state the properties -/

/-- Every `VARIABLE` node of the tree carries a value that passes `is_variable`. -/
def Node.VarsOk : Node → Prop
  | Node.null => True
  | Node.mk type value left right =>
    (type = NodeType.VARIABLE → is_variable value = true) ∧ left.VarsOk ∧ right.VarsOk

/-- Every binding of `st` is a binding of `st1`, with the same value. -/
def Interp.Keeps (st st1 : Interp) : Prop :=
  ∀ k v, st.symbol_table k = some v → st1.symbol_table k = some v

/-- Every node of the tree, `nullptr` apart, has a type and a value that
satisfy `p`. -/
def Node.All (p : NodeType → Str → Prop) : Node → Prop
  | Node.null => True
  | Node.mk type value left right => p type value ∧ left.All p ∧ right.All p

/-- Every value stored in the symbol table is `T` or `F`. -/
def Interp.ValuesOk (st : Interp) : Prop :=
  ∀ k v, st.symbol_table k = some v → v = T ∨ v = F

/-- The states of a session: the fresh interpreter, and every state that a call
of `execute` on some line leaves behind, whether the call returned or threw
(the loop of `run` catches the exception and goes on). -/
inductive Reachable : Interp → Prop where
  | fresh : Reachable Interp.fresh
  | step {st st1 : Interp} (leftFirst : Bool) (line : Str) (r : Except Str Int) :
      Reachable st → execute leftFirst line st = some (r, st1) → Reachable st1

/-- Every entry of the operator stack is one of the four operators or `(`. -/
def OpsStackOk (ops : List Str) : Prop :=
  ∀ o ∈ ops, is_operator o = true ∨ o = LEFT_BRACKET

/-- The leaf pushed for an operand token (lines 82-85): a `NUMBER` node for `T`
and `F`, a `VARIABLE` node for any other word. -/
def operandLeaf (token : Str) : Node :=
  if is_sign token then Node.leaf NodeType.NUMBER token else Node.leaf NodeType.VARIABLE token

/-- The text of a tree: a leaf is printed as its value, an operator node as
`(`, the text of its left child, a space, its symbol, a space, the text of its
right child and `)`. -/
def showNode : Node → Str
  | Node.null => []
  | Node.mk NodeType.OPERATOR value left right =>
    "(".toList ++ showNode left ++ " ".toList ++ value ++ " ".toList ++ showNode right ++
      ")".toList
  | Node.mk _ value _ _ => value

/-- The trees built from literal leaves, variable leaves (words other than `T`
and `F` that do not begin with `let`) and nodes of the binary operators `&`,
`|`, `=` with both children present. -/
def Node.IsBinaryExpr : Node → Prop
  | Node.null => False
  | Node.mk NodeType.NUMBER value left right =>
    (value = T ∨ value = F) ∧ left = Node.null ∧ right = Node.null
  | Node.mk NodeType.VARIABLE value left right =>
    is_variable value = true ∧ is_sign value = false ∧ value.take 3 ≠ VAR ∧
      left = Node.null ∧ right = Node.null
  | Node.mk NodeType.OPERATOR value left right =>
    (value = AND ∨ value = OR ∨ value = EQ) ∧ left.IsBinaryExpr ∧ right.IsBinaryExpr

/-- The tokens of the text of a tree. -/
def nodeTokens : Node → List Str
  | Node.null => []
  | Node.mk NodeType.OPERATOR value left right =>
    LEFT_BRACKET :: (nodeTokens left ++ value :: (nodeTokens right ++ [RIGHT_BRACKET]))
  | Node.mk _ value _ _ => [value]

/-! ## Basic facts about the tokenizer -/

theorem isalnum_of_isalpha {c : Char} (h : isalpha c = true) : isalnum c = true := by
  simp [isalnum, h]

theorem isspace_false_of_isalpha {c : Char} (h : isalpha c = true) : isspace c = false := by
  unfold isalpha at h
  unfold isspace
  generalize c.toNat = n at h
  have h1 : (65 ≤ n ∧ n ≤ 90) ∨ (97 ≤ n ∧ n ≤ 122) := by simpa using h
  have h2 : n ≠ 32 ∧ (9 ≤ n → 13 < n) := by omega
  simpa using h2

theorem tokenizeLoop_nil (n : Nat) : tokenizeLoop n [] = [] := by
  cases n <;> rfl

/-- Once the fuel covers the length of the rest of the line, more fuel changes
nothing. -/
theorem tokenizeLoop_fuel : ∀ (n m : Nat) (s : Str), s.length ≤ n → s.length ≤ m →
    tokenizeLoop n s = tokenizeLoop m s := by
  intro n
  induction n with
  | zero =>
    intro m s h _
    have : s = [] := List.length_eq_zero.mp (Nat.le_zero.mp h)
    subst this
    simp [tokenizeLoop_nil]
  | succ n ih =>
    intro m s hn hm
    cases s with
    | nil => simp [tokenizeLoop_nil]
    | cons c cs =>
      cases m with
      | zero => simp at hm
      | succ m =>
        simp only [List.length_cons, Nat.add_le_add_iff_right] at hn hm
        simp only [tokenizeLoop]
        split
        · exact ih m cs hn hm
        · split
          · apply ih <;> simp <;> omega
          · split
            · rename_i hc
              have hd : (c :: cs).dropWhile isalnum = cs.dropWhile isalnum := by
                simp [List.dropWhile, isalnum_of_isalpha hc]
              have hl : (cs.dropWhile isalnum).length ≤ cs.length :=
                (List.dropWhile_sublist _).length_le
              rw [hd, ih m _ (by omega) (by omega)]
            · rw [ih m cs hn hm]

theorem tokenize_nil : tokenize [] = [] := rfl

/-- White space is skipped. -/
theorem tokenize_space (c : Char) (r : Str) (h : isspace c = true) :
    tokenize (c :: r) = tokenize r := by
  simp [tokenize, tokenizeLoop, h]

/-- A character that is neither white space nor a letter is a token of its own. -/
theorem tokenize_symbol (c : Char) (r : Str) (hs : isspace c = false) (ha : isalpha c = false) :
    tokenize (c :: r) = [c] :: tokenize r := by
  have hl : c ≠ 'l' := by
    rintro rfl
    simp [isalpha] at ha
  simp [tokenize, tokenizeLoop, hs, ha, VAR, hl]

/-- A word `x` that passes `is_variable`, does not start with `let`, and is
followed by the end of the line or by a character that is not alphanumeric, is
one token. -/
theorem tokenize_word (x r : Str) (hx : is_variable x = true) (hlet : x.take 3 ≠ VAR)
    (hr : ∀ c ∈ r.head?, isalnum c = false) :
    tokenize (x ++ r) = x :: tokenize r := by
  cases x with
  | nil => simp [is_variable] at hx
  | cons a x =>
    simp only [is_variable, List.all_cons, Bool.and_eq_true, List.all_eq_true] at hx
    obtain ⟨ha, -, hall⟩ := hx
    have hnolet : ¬ ((a :: x ++ r).take 3 = VAR) := by
      intro h
      rcases x with _ | ⟨b, _ | ⟨c, x⟩⟩
      · rcases r with _ | ⟨d, r⟩
        · simp [VAR] at h
        · have hd : isalnum d = false := hr d (by simp)
          have he : d = 'e' := by
            simp only [VAR, List.cons_append, List.nil_append] at h
            have := congrArg (fun l => l.get? 1) h
            simpa using this
          rw [he] at hd
          exact absurd hd (by decide)
      · rcases r with _ | ⟨d, r⟩
        · simp [VAR] at h
        · have hd : isalnum d = false := hr d (by simp)
          have he : d = 't' := by
            simp only [VAR, List.cons_append, List.nil_append] at h
            have := congrArg (fun l => l.get? 2) h
            simpa using this
          rw [he] at hd
          exact absurd hd (by decide)
      · exact hlet (by simpa using h)
    have htake : (x ++ r).takeWhile isalnum = x := by
      rw [List.takeWhile_append_of_pos (fun c hc => hall c hc)]
      cases r with
      | nil => simp
      | cons d r => simp [List.takeWhile, hr d (by simp)]
    have hdrop : (x ++ r).dropWhile isalnum = r := by
      rw [List.dropWhile_append_of_pos (fun c hc => hall c hc)]
      cases r with
      | nil => simp
      | cons d r => simp [List.dropWhile, hr d (by simp)]
    have hfuel : tokenizeLoop (x.length + r.length) r = tokenizeLoop r.length r :=
      tokenizeLoop_fuel _ _ _ (by omega) (le_refl _)
    simp only [tokenize, List.cons_append, List.length_cons, List.length_append, tokenizeLoop,
      isspace_false_of_isalpha ha, Bool.false_eq_true, if_false]
    rw [if_neg (fun h => hnolet h.2), if_pos ha]
    simp [List.takeWhile, List.dropWhile, isalnum_of_isalpha ha, htake, hdrop, hfuel]

/-- A word that ends the line. -/
theorem tokenize_last_word (x : Str) (hx : is_variable x = true) (hlet : x.take 3 ≠ VAR) :
    tokenize x = [x] := by
  have h := tokenize_word x [] hx hlet (by simp)
  simpa [tokenize_nil] using h

/-! ## Basic facts about `execute` -/

theorem execute_ok {leftFirst : Bool} {line : Str} {st st1 : Interp} {tree : Node} {res : Str}
    (hp : generate_tree line = some tree)
    (he : evaluate_tree leftFirst tree st = (Except.ok res, st1)) :
    execute leftFirst line st = some (Except.ok 0, (st1.print res).print "\n".toList) := by
  simp [execute, hp, he]

theorem execute_error {leftFirst : Bool} {line : Str} {st st1 : Interp} {tree : Node} {e : Str}
    (hp : generate_tree line = some tree)
    (he : evaluate_tree leftFirst tree st = (Except.error e, st1)) :
    execute leftFirst line st = some (Except.error e, st1) := by
  simp [execute, hp, he]

/-! ## Basic facts about the parser -/

theorem AND_ne_EQ : AND ≠ EQ := by decide


theorem parseToken_variable (x : Str) (ops : List Str) (nodes : List Node)
    (hsign : is_sign x = false) (hx : is_variable x = true) :
    parseToken x ops nodes = some (ops, Node.leaf NodeType.VARIABLE x :: nodes) := by
  simp [parseToken, hsign, hx]

theorem parseToken_T (ops : List Str) (nodes : List Node) :
    parseToken T ops nodes = some (ops, Node.leaf NodeType.NUMBER T :: nodes) := by
  simp [parseToken, is_sign]

theorem parseToken_F (ops : List Str) (nodes : List Node) :
    parseToken F ops nodes = some (ops, Node.leaf NodeType.NUMBER F :: nodes) := by
  simp [parseToken, is_sign]

theorem parseToken_literal (b : Str) (hb : b = T ∨ b = F) (ops : List Str) (nodes : List Node) :
    parseToken b ops nodes = some (ops, Node.leaf NodeType.NUMBER b :: nodes) := by
  rcases hb with rfl | rfl
  · exact parseToken_T ops nodes
  · exact parseToken_F ops nodes

theorem parseToken_operator (op : Str) (ops : List Str) (nodes : List Node)
    (hop : op = AND ∨ op = OR ∨ op = EQ ∨ op = NOT) :
    parseToken op ops nodes =
      some (op :: (reduceWhileOperator op ops nodes).1, (reduceWhileOperator op ops nodes).2) := by
  rcases hop with rfl | rfl | rfl | rfl <;> rfl

/-- The line `x = b`, for a word `x` and a literal `b`, has the three tokens
`x`, `=`, `b`. -/
theorem tokenize_assign (x b : Str) (hx : is_variable x = true) (hlet : x.take 3 ≠ VAR)
    (hb : b = T ∨ b = F) :
    tokenize (x ++ " = ".toList ++ b) = [x, EQ, b] := by
  rw [List.append_assoc, tokenize_word x _ hx hlet (by simp [isalnum, isalpha])]
  rcases hb with rfl | rfl <;> rfl

/-- The tree of the line `x = b`: an `=` node over the variable and the literal. -/
theorem generate_tree_assign (x b : Str) (hx : is_variable x = true) (hsign : is_sign x = false)
    (hlet : x.take 3 ≠ VAR) (hb : b = T ∨ b = F) :
    generate_tree (x ++ " = ".toList ++ b) =
      some (Node.mk NodeType.OPERATOR EQ (Node.leaf NodeType.VARIABLE x)
        (Node.leaf NodeType.NUMBER b)) := by
  simp only [generate_tree, tokenize_assign x b hx hlet hb, parse, parseTokens,
    parseToken_variable x _ _ hsign hx, parseToken_literal b hb,
    parseToken_operator EQ _ _ (Or.inr (Or.inr (Or.inl rfl)))]
  rfl

/-- The tree of the line `x`: the variable leaf. -/
theorem generate_tree_word (x : Str) (hx : is_variable x = true) (hsign : is_sign x = false)
    (hlet : x.take 3 ≠ VAR) :
    generate_tree x = some (Node.leaf NodeType.VARIABLE x) := by
  simp only [generate_tree, tokenize_last_word x hx hlet, parse, parseTokens,
    parseToken_variable x _ _ hsign hx]
  rfl

/-! ## Assignment, reference and comparison -/

/-- C1. For a word `x` that is a variable name (a letter followed by
alphanumerics, neither `T` nor `F`, not beginning with `let`) and is not bound,
and a literal `b`, the line `x = b` parses to an `=` node that evaluates to `b`
and binds `x` to `b`, every other binding unchanged; `execute` prints `x: b`.
In the state so reached the line `x` evaluates to `b`, and `execute` prints `b`. -/
theorem C1_assign_then_reference (leftFirst : Bool) (st : Interp) (x b : Str)
    (hx : is_variable x = true) (hsign : is_sign x = false) (hlet : x.take 3 ≠ VAR)
    (hnew : st.symbol_table x = none) (hb : b = T ∨ b = F) :
    generate_tree (x ++ " = ".toList ++ b) =
        some (Node.mk NodeType.OPERATOR EQ (Node.leaf NodeType.VARIABLE x)
          (Node.leaf NodeType.NUMBER b)) ∧
      evaluate_tree leftFirst (Node.mk NodeType.OPERATOR EQ (Node.leaf NodeType.VARIABLE x)
          (Node.leaf NodeType.NUMBER b)) st =
        (Except.ok b,
          { symbol_table := fun k => if k = x then some b else st.symbol_table k,
            cout := st.cout ++ x ++ ": ".toList }) ∧
      execute leftFirst (x ++ " = ".toList ++ b) st =
        some (Except.ok 0,
          { symbol_table := fun k => if k = x then some b else st.symbol_table k,
            cout := st.cout ++ x ++ ": ".toList ++ b ++ "\n".toList }) ∧
      generate_tree x = some (Node.leaf NodeType.VARIABLE x) ∧
      evaluate_tree leftFirst (Node.leaf NodeType.VARIABLE x)
          { symbol_table := fun k => if k = x then some b else st.symbol_table k,
            cout := st.cout ++ x ++ ": ".toList ++ b ++ "\n".toList } =
        (Except.ok b,
          { symbol_table := fun k => if k = x then some b else st.symbol_table k,
            cout := st.cout ++ x ++ ": ".toList ++ b ++ "\n".toList }) ∧
      execute leftFirst x
          { symbol_table := fun k => if k = x then some b else st.symbol_table k,
            cout := st.cout ++ x ++ ": ".toList ++ b ++ "\n".toList } =
        some (Except.ok 0,
          { symbol_table := fun k => if k = x then some b else st.symbol_table k,
            cout := st.cout ++ x ++ ": ".toList ++ b ++ "\n".toList ++ b ++ "\n".toList }) := by
  have hp := generate_tree_assign x b hx hsign hlet hb
  have he : evaluate_tree leftFirst (Node.mk NodeType.OPERATOR EQ (Node.leaf NodeType.VARIABLE x)
      (Node.leaf NodeType.NUMBER b)) st =
      (Except.ok b,
        { symbol_table := fun k => if k = x then some b else st.symbol_table k,
          cout := st.cout ++ x ++ ": ".toList }) := by
    simp [evaluate_tree, Node.leaf, is_variable_in_program, hnew, assignTo, Interp.assign,
      Interp.print]
  have hp2 := generate_tree_word x hx hsign hlet
  have he2 : ∀ out : Str, evaluate_tree leftFirst (Node.leaf NodeType.VARIABLE x)
      { symbol_table := fun k => if k = x then some b else st.symbol_table k, cout := out } =
      (Except.ok b,
        { symbol_table := fun k => if k = x then some b else st.symbol_table k, cout := out }) := by
    intro out
    simp [evaluate_tree, Node.leaf, is_variable_in_program, hx]
  refine ⟨hp, he, ?_, hp2, he2 _, ?_⟩
  · rw [execute_ok hp he]
    simp [Interp.print]
  · rw [execute_ok hp2 (he2 _)]
    simp [Interp.print]

/-- C1 at the fresh interpreter, for the lines `x = T` and `x`. -/
theorem C1_assign_then_reference_witness :
    generate_tree ("x".toList ++ " = ".toList ++ T) =
        some (Node.mk NodeType.OPERATOR EQ (Node.leaf NodeType.VARIABLE "x".toList)
          (Node.leaf NodeType.NUMBER T)) ∧
      evaluate_tree true (Node.mk NodeType.OPERATOR EQ (Node.leaf NodeType.VARIABLE "x".toList)
          (Node.leaf NodeType.NUMBER T)) Interp.fresh =
        (Except.ok T,
          { symbol_table := fun k => if k = "x".toList then some T else Interp.fresh.symbol_table k,
            cout := Interp.fresh.cout ++ "x".toList ++ ": ".toList }) ∧
      execute true ("x".toList ++ " = ".toList ++ T) Interp.fresh =
        some (Except.ok 0,
          { symbol_table := fun k => if k = "x".toList then some T else Interp.fresh.symbol_table k,
            cout := Interp.fresh.cout ++ "x".toList ++ ": ".toList ++ T ++ "\n".toList }) ∧
      generate_tree "x".toList = some (Node.leaf NodeType.VARIABLE "x".toList) ∧
      evaluate_tree true (Node.leaf NodeType.VARIABLE "x".toList)
          { symbol_table := fun k => if k = "x".toList then some T else Interp.fresh.symbol_table k,
            cout := Interp.fresh.cout ++ "x".toList ++ ": ".toList ++ T ++ "\n".toList } =
        (Except.ok T,
          { symbol_table := fun k => if k = "x".toList then some T else Interp.fresh.symbol_table k,
            cout := Interp.fresh.cout ++ "x".toList ++ ": ".toList ++ T ++ "\n".toList }) ∧
      execute true "x".toList
          { symbol_table := fun k => if k = "x".toList then some T else Interp.fresh.symbol_table k,
            cout := Interp.fresh.cout ++ "x".toList ++ ": ".toList ++ T ++ "\n".toList } =
        some (Except.ok 0,
          { symbol_table := fun k => if k = "x".toList then some T else Interp.fresh.symbol_table k,
            cout := Interp.fresh.cout ++ "x".toList ++ ": ".toList ++ T ++ "\n".toList ++ T ++
              "\n".toList }) :=
  C1_assign_then_reference true Interp.fresh "x".toList T (by decide) (by decide) (by decide) rfl
    (Or.inl rfl)

/-- C2. When the variable name `x` is bound to `v` (`T`, `F`, or any other
stored value) and `b` is a literal, the
line `x = b` is a comparison: it evaluates to `T` when `v = b` and to `F`
otherwise, in either order of evaluating the two sides, and the state is
unchanged (apart from `execute` printing the result). -/
theorem C2_equality_after_binding (leftFirst : Bool) (st : Interp) (x v b : Str)
    (hx : is_variable x = true) (hsign : is_sign x = false) (hlet : x.take 3 ≠ VAR)
    (hbound : st.symbol_table x = some v) (hb : b = T ∨ b = F) :
    generate_tree (x ++ " = ".toList ++ b) =
        some (Node.mk NodeType.OPERATOR EQ (Node.leaf NodeType.VARIABLE x)
          (Node.leaf NodeType.NUMBER b)) ∧
      evaluate_tree leftFirst (Node.mk NodeType.OPERATOR EQ (Node.leaf NodeType.VARIABLE x)
          (Node.leaf NodeType.NUMBER b)) st =
        (Except.ok (if v = b then T else F), st) ∧
      execute leftFirst (x ++ " = ".toList ++ b) st =
        some (Except.ok 0,
          { symbol_table := st.symbol_table,
            cout := st.cout ++ (if v = b then T else F) ++ "\n".toList }) := by
  have hp := generate_tree_assign x b hx hsign hlet hb
  have he : evaluate_tree leftFirst (Node.mk NodeType.OPERATOR EQ (Node.leaf NodeType.VARIABLE x)
      (Node.leaf NodeType.NUMBER b)) st = (Except.ok (if v = b then T else F), st) := by
    cases leftFirst <;>
      simp [evaluate_tree, Node.leaf, is_variable_in_program, hx, hbound, compareEq]
  refine ⟨hp, he, ?_⟩
  rw [execute_ok hp he]
  simp [Interp.print]

/-- C2 with `x` bound to `T`, for the line `x = F`. -/
theorem C2_equality_after_binding_witness :
    generate_tree ("x".toList ++ " = ".toList ++ F) =
        some (Node.mk NodeType.OPERATOR EQ (Node.leaf NodeType.VARIABLE "x".toList)
          (Node.leaf NodeType.NUMBER F)) ∧
      evaluate_tree true (Node.mk NodeType.OPERATOR EQ (Node.leaf NodeType.VARIABLE "x".toList)
          (Node.leaf NodeType.NUMBER F)) (Interp.fresh.assign "x".toList T) =
        (Except.ok (if T = F then T else F), Interp.fresh.assign "x".toList T) ∧
      execute true ("x".toList ++ " = ".toList ++ F) (Interp.fresh.assign "x".toList T) =
        some (Except.ok 0,
          { symbol_table := (Interp.fresh.assign "x".toList T).symbol_table,
            cout := (Interp.fresh.assign "x".toList T).cout ++ (if T = F then T else F) ++
              "\n".toList }) :=
  C2_equality_after_binding true (Interp.fresh.assign "x".toList T) "x".toList T F
    (by decide) (by decide) (by decide) (by simp [Interp.assign]) (Or.inr rfl)

/-- C3. For a variable name `y` that is not bound, the line `y` parses to the
variable leaf, whose evaluation throws "Undefined variable: 'y'"; the state
after the throw is the state before, so `y` is still not bound. -/
theorem C3_unbound_reference_fails (leftFirst : Bool) (st : Interp) (y : Str)
    (hy : is_variable y = true) (hsign : is_sign y = false) (hlet : y.take 3 ≠ VAR)
    (hnew : st.symbol_table y = none) :
    generate_tree y = some (Node.leaf NodeType.VARIABLE y) ∧
      evaluate_tree leftFirst (Node.leaf NodeType.VARIABLE y) st =
        (Except.error (undefinedVariable y), st) ∧
      execute leftFirst y st = some (Except.error (undefinedVariable y), st) := by
  have hp := generate_tree_word y hy hsign hlet
  have he : evaluate_tree leftFirst (Node.leaf NodeType.VARIABLE y) st =
      (Except.error (undefinedVariable y), st) := by
    simp [evaluate_tree, Node.leaf, is_variable_in_program, hnew]
  exact ⟨hp, he, execute_error hp he⟩

/-- C3 at the fresh interpreter, for the line `y`. -/
theorem C3_unbound_reference_fails_witness :
    generate_tree "y".toList = some (Node.leaf NodeType.VARIABLE "y".toList) ∧
      evaluate_tree true (Node.leaf NodeType.VARIABLE "y".toList) Interp.fresh =
        (Except.error (undefinedVariable "y".toList), Interp.fresh) ∧
      execute true "y".toList Interp.fresh =
        some (Except.error (undefinedVariable "y".toList), Interp.fresh) :=
  C3_unbound_reference_fails true Interp.fresh "y".toList (by decide) (by decide) (by decide) rfl

/-! ## Precedence and parentheses -/

/-- C4. For literals `a`, `b`, `c` the lines `a | b & c` and `a | (b & c)`
parse to the same tree, an `|` node over `a` and the `&` node over `b` and `c`;
in every state its value is the spelling of `a ∨ (b ∧ c)`, which `execute`
prints, and the symbol table is unchanged. In particular `T | F & F` gives `T`. -/
theorem C4_and_binds_tighter_than_or (leftFirst : Bool) (st : Interp) (a b c : Bool) :
    generate_tree (literal a ++ " | ".toList ++ literal b ++ " & ".toList ++ literal c) =
        some (Node.mk NodeType.OPERATOR OR (Node.leaf NodeType.NUMBER (literal a))
          (Node.mk NodeType.OPERATOR AND (Node.leaf NodeType.NUMBER (literal b))
            (Node.leaf NodeType.NUMBER (literal c)))) ∧
      generate_tree (literal a ++ " | (".toList ++ literal b ++ " & ".toList ++ literal c ++
          ")".toList) =
        some (Node.mk NodeType.OPERATOR OR (Node.leaf NodeType.NUMBER (literal a))
          (Node.mk NodeType.OPERATOR AND (Node.leaf NodeType.NUMBER (literal b))
            (Node.leaf NodeType.NUMBER (literal c)))) ∧
      execute leftFirst (literal a ++ " | ".toList ++ literal b ++ " & ".toList ++ literal c) st =
        some (Except.ok 0,
          { symbol_table := st.symbol_table,
            cout := st.cout ++ literal (a || (b && c)) ++ "\n".toList }) ∧
      execute leftFirst (literal a ++ " | (".toList ++ literal b ++ " & ".toList ++ literal c ++
          ")".toList) st =
        some (Except.ok 0,
          { symbol_table := st.symbol_table,
            cout := st.cout ++ literal (a || (b && c)) ++ "\n".toList }) ∧
      execute leftFirst "T | F & F".toList st =
        some (Except.ok 0, { symbol_table := st.symbol_table, cout := st.cout ++ T ++ "\n".toList }) := by
  cases leftFirst <;> cases a <;> cases b <;> cases c <;> exact ⟨rfl, rfl, rfl, rfl, rfl⟩

/-- C5. For literals `a`, `b`, `c` the line `(a | b) & c` parses to an `&` node
over the `|` node of `a` and `b`, and `c`; in every state its value is the
spelling of `(a ∨ b) ∧ c`, which `execute` prints, and the symbol table is
unchanged. In particular `(T | F) & F` gives `F`. -/
theorem C5_parentheses_override_precedence (leftFirst : Bool) (st : Interp) (a b c : Bool) :
    generate_tree ("(".toList ++ literal a ++ " | ".toList ++ literal b ++ ") & ".toList ++
          literal c) =
        some (Node.mk NodeType.OPERATOR AND
          (Node.mk NodeType.OPERATOR OR (Node.leaf NodeType.NUMBER (literal a))
            (Node.leaf NodeType.NUMBER (literal b)))
          (Node.leaf NodeType.NUMBER (literal c))) ∧
      execute leftFirst ("(".toList ++ literal a ++ " | ".toList ++ literal b ++ ") & ".toList ++
          literal c) st =
        some (Except.ok 0,
          { symbol_table := st.symbol_table,
            cout := st.cout ++ literal ((a || b) && c) ++ "\n".toList }) ∧
      execute leftFirst "(T | F) & F".toList st =
        some (Except.ok 0, { symbol_table := st.symbol_table, cout := st.cout ++ F ++ "\n".toList }) := by
  cases leftFirst <;> cases a <;> cases b <;> cases c <;> exact ⟨rfl, rfl, rfl⟩

/-! ## Lines with missing operands, and `NOT` -/

/-- C6, as the code behaves. A line that is a single binary operator is not
rejected: the parser builds an operator node whose two children are `nullptr`,
absent children evaluate to `F`, so `&` and `|` give `F` and `=` gives `T`;
`execute` prints that and returns `0`, in every state, and the symbol table is
unchanged. -/
theorem C6_bare_operator_evaluates (leftFirst : Bool) (st : Interp) :
    (generate_tree AND = some (Node.mk NodeType.OPERATOR AND Node.null Node.null) ∧
      execute leftFirst AND st =
        some (Except.ok 0,
          { symbol_table := st.symbol_table, cout := st.cout ++ F ++ "\n".toList })) ∧
    (generate_tree OR = some (Node.mk NodeType.OPERATOR OR Node.null Node.null) ∧
      execute leftFirst OR st =
        some (Except.ok 0,
          { symbol_table := st.symbol_table, cout := st.cout ++ F ++ "\n".toList })) ∧
    (generate_tree EQ = some (Node.mk NodeType.OPERATOR EQ Node.null Node.null) ∧
      execute leftFirst EQ st =
        some (Except.ok 0,
          { symbol_table := st.symbol_table, cout := st.cout ++ T ++ "\n".toList })) := by
  cases leftFirst <;> exact ⟨⟨rfl, rfl⟩, ⟨rfl, rfl⟩, ⟨rfl, rfl⟩⟩

/-- C6 fails as stated: at the fresh interpreter the line `&` throws nothing,
`execute` returns `0` after printing `F`. -/
theorem C6_bare_operator_not_rejected :
    execute true "&".toList Interp.fresh =
        some (Except.ok 0, { symbol_table := Interp.fresh.symbol_table, cout := "F\n".toList }) ∧
      ¬ ∃ e st1, execute true "&".toList Interp.fresh = some (Except.error e, st1) := by
  have h : execute true "&".toList Interp.fresh =
      some (Except.ok 0, { symbol_table := Interp.fresh.symbol_table, cout := "F\n".toList }) := rfl
  refine ⟨h, ?_⟩
  rintro ⟨e, st1, he⟩
  rw [h] at he
  simp at he

/-- C7, as the code behaves. For a literal `b` the line `~~b` parses to a single
`~` node over `b`: the second `~` reduces the first one while the operand stack
is still empty, and that childless node stays below the root on the stack. So
the line evaluates to the negation of `b`, not to `b`; `~~T` prints `F`. -/
theorem C7_double_negation_negates (leftFirst : Bool) (st : Interp) (b : Bool) :
    generate_tree ("~~".toList ++ literal b) =
        some (Node.mk NodeType.OPERATOR NOT (Node.leaf NodeType.NUMBER (literal b)) Node.null) ∧
      execute leftFirst ("~~".toList ++ literal b) st =
        some (Except.ok 0,
          { symbol_table := st.symbol_table, cout := st.cout ++ literal (!b) ++ "\n".toList }) ∧
      execute leftFirst "~~T".toList st =
        some (Except.ok 0,
          { symbol_table := st.symbol_table, cout := st.cout ++ F ++ "\n".toList }) := by
  cases leftFirst <;> cases b <;> exact ⟨rfl, rfl, rfl⟩

/-- C8, as the code behaves. For literals `A`, `B` the line `~(A & B)` evaluates
to the spelling of `¬(A ∧ B)`, but the line `(~A | ~B)` evaluates to the
spelling of `A`: at `)` the second `~` is reduced with two operands, `~A` as its
left child and `B` as its right child, and `|` is left with no left operand. At
`A = B = T` the two lines print `F` and `T`. -/
theorem C8_de_morgan_sides (leftFirst : Bool) (st : Interp) (A B : Bool) :
    execute leftFirst ("~(".toList ++ literal A ++ " & ".toList ++ literal B ++ ")".toList) st =
        some (Except.ok 0,
          { symbol_table := st.symbol_table,
            cout := st.cout ++ literal (!(A && B)) ++ "\n".toList }) ∧
      generate_tree ("(~".toList ++ literal A ++ " | ~".toList ++ literal B ++ ")".toList) =
        some (Node.mk NodeType.OPERATOR OR Node.null
          (Node.mk NodeType.OPERATOR NOT
            (Node.mk NodeType.OPERATOR NOT (Node.leaf NodeType.NUMBER (literal A)) Node.null)
            (Node.leaf NodeType.NUMBER (literal B)))) ∧
      execute leftFirst ("(~".toList ++ literal A ++ " | ~".toList ++ literal B ++ ")".toList) st =
        some (Except.ok 0,
          { symbol_table := st.symbol_table, cout := st.cout ++ literal A ++ "\n".toList }) ∧
      execute leftFirst "~(T & T)".toList st =
        some (Except.ok 0,
          { symbol_table := st.symbol_table, cout := st.cout ++ F ++ "\n".toList }) ∧
      execute leftFirst "(~T | ~T)".toList st =
        some (Except.ok 0,
          { symbol_table := st.symbol_table, cout := st.cout ++ T ++ "\n".toList }) := by
  cases leftFirst <;> cases A <;> cases B <;> exact ⟨rfl, rfl, rfl, rfl, rfl⟩

/-! ## The parser only builds `VARIABLE` nodes from words -/

theorem popNode_VarsOk {nodes : List Node} (h : ∀ n ∈ nodes, n.VarsOk) :
    (popNode nodes).1.VarsOk ∧ ∀ n ∈ (popNode nodes).2, n.VarsOk := by
  cases nodes with
  | nil => simp [popNode, Node.VarsOk]
  | cons a nodes =>
    simp only [popNode]
    exact ⟨h a (by simp), fun n hn => h n (by simp [hn])⟩

theorem reduceBracket_VarsOk (op : Str) {nodes : List Node} (h : ∀ n ∈ nodes, n.VarsOk) :
    ∀ n ∈ reduceBracket op nodes, n.VarsOk := by
  have hr := popNode_VarsOk h
  have hl := popNode_VarsOk hr.2
  intro n hn
  simp only [reduceBracket, List.mem_cons] at hn
  rcases hn with rfl | hn
  · exact ⟨by simp, hl.1, hr.1⟩
  · exact hl.2 n hn

theorem reduce_VarsOk (op : Str) {nodes : List Node} (h : ∀ n ∈ nodes, n.VarsOk) :
    ∀ n ∈ reduce op nodes, n.VarsOk := by
  by_cases hop : op = NOT
  · have hl := popNode_VarsOk h
    intro n hn
    simp only [reduce, hop, ne_eq, not_true_eq_false, if_false, List.mem_cons] at hn
    rcases hn with rfl | hn
    · exact ⟨by simp, hl.1, trivial⟩
    · exact hl.2 n hn
  · have heq : reduce op nodes = reduceBracket op nodes := by
      simp [reduce, reduceBracket, hop]
    rw [heq]
    exact reduceBracket_VarsOk op h

theorem reduceWhileOperator_VarsOk (token : Str) (ops : List Str) :
    ∀ {nodes : List Node}, (∀ n ∈ nodes, n.VarsOk) →
      ∀ n ∈ (reduceWhileOperator token ops nodes).2, n.VarsOk := by
  induction ops with
  | nil => intro nodes h; simpa [reduceWhileOperator] using h
  | cons top ops ih =>
    intro nodes h
    simp only [reduceWhileOperator]
    split
    · exact ih (reduce_VarsOk top h)
    · exact h

theorem reduceWhileBracket_VarsOk (ops : List Str) :
    ∀ {nodes : List Node}, (∀ n ∈ nodes, n.VarsOk) →
      ∀ n ∈ (reduceWhileBracket ops nodes).2, n.VarsOk := by
  induction ops with
  | nil => intro nodes h; simpa [reduceWhileBracket] using h
  | cons top ops ih =>
    intro nodes h
    simp only [reduceWhileBracket]
    split
    · exact ih (reduceBracket_VarsOk top h)
    · exact h

theorem reduceAll_VarsOk (ops : List Str) :
    ∀ {nodes : List Node}, (∀ n ∈ nodes, n.VarsOk) → ∀ n ∈ reduceAll ops nodes, n.VarsOk := by
  induction ops with
  | nil => intro nodes h; simpa [reduceAll] using h
  | cons top ops ih =>
    intro nodes h
    simp only [reduceAll]
    exact ih (reduce_VarsOk top h)

theorem parseToken_VarsOk {token : Str} {ops ops1 : List Str} {nodes nodes1 : List Node}
    (h : ∀ n ∈ nodes, n.VarsOk) (hs : parseToken token ops nodes = some (ops1, nodes1)) :
    ∀ n ∈ nodes1, n.VarsOk := by
  unfold parseToken at hs
  split at hs
  · simp only [Option.some.injEq, Prod.mk.injEq] at hs
    rw [← hs.2]
    intro n hn
    rcases List.mem_cons.mp hn with rfl | hn
    · simp [Node.leaf, Node.VarsOk]
    · exact h n hn
  · split at hs
    · rename_i hv
      simp only [Option.some.injEq, Prod.mk.injEq] at hs
      rw [← hs.2]
      intro n hn
      rcases List.mem_cons.mp hn with rfl | hn
      · simp [Node.leaf, Node.VarsOk, hv]
      · exact h n hn
    · split at hs
      · simp only [Option.some.injEq, Prod.mk.injEq] at hs
        rw [← hs.2]
        exact reduceWhileOperator_VarsOk token ops h
      · split at hs
        · simp only [Option.some.injEq, Prod.mk.injEq] at hs
          rw [← hs.2]
          exact h
        · split at hs
          · have hb := reduceWhileBracket_VarsOk ops h
            split at hs
            · simp at hs
            · rename_i heq
              simp only [Option.some.injEq, Prod.mk.injEq] at hs
              rw [← hs.2]
              rw [heq] at hb
              exact hb
          · simp only [Option.some.injEq, Prod.mk.injEq] at hs
            rw [← hs.2]
            exact h

theorem parseTokens_VarsOk (tokens : List Str) :
    ∀ {ops ops1 : List Str} {nodes nodes1 : List Node}, (∀ n ∈ nodes, n.VarsOk) →
      parseTokens tokens ops nodes = some (ops1, nodes1) → ∀ n ∈ nodes1, n.VarsOk := by
  induction tokens with
  | nil =>
    intro ops ops1 nodes nodes1 h hs
    simp only [parseTokens, Option.some.injEq, Prod.mk.injEq] at hs
    rw [← hs.2]
    exact h
  | cons token tokens ih =>
    intro ops ops1 nodes nodes1 h hs
    simp only [parseTokens] at hs
    split at hs
    · simp at hs
    · rename_i s heq
      exact ih (@parseToken_VarsOk token ops s.1 nodes s.2 h (by simpa using heq)) hs

/-- Every `VARIABLE` node of a parsed tree carries a word. -/
theorem generate_tree_VarsOk {line : Str} {tree : Node} (h : generate_tree line = some tree) :
    tree.VarsOk := by
  simp only [generate_tree, parse] at h
  split at h
  · simp at h
  · rename_i s heq
    have hs := @parseTokens_VarsOk (tokenize line) [] s.1 [] s.2 (by simp) (by simpa using heq)
    have ha := reduceAll_VarsOk s.1 hs
    split at h
    · simp at h
    · rename_i top rest htop
      simp only [Option.some.injEq] at h
      rw [← h]
      exact ha top (by rw [htop]; simp)

/-! ## Evaluation keeps every binding -/

theorem Interp.Keeps.refl (st : Interp) : st.Keeps st := fun _ _ h => h

theorem Interp.Keeps.trans {st st1 st2 : Interp} (h1 : st.Keeps st1) (h2 : st1.Keeps st2) :
    st.Keeps st2 := fun k v h => h2 k v (h1 k v h)

theorem compareEq_Keeps (leftFirst : Bool) (evalLeft evalRight : Interp → Except Str Str × Interp)
    (hl : ∀ st : Interp, st.Keeps (evalLeft st).2)
    (hr : ∀ st : Interp, st.Keeps (evalRight st).2) (st : Interp) :
    st.Keeps (compareEq leftFirst evalLeft evalRight st).2 := by
  cases leftFirst
  · simp only [compareEq, Bool.false_eq_true, if_false]
    have h1 := hr st
    split
    · rename_i heq; rw [heq] at h1; exact h1
    · rename_i r st1 heq
      rw [heq] at h1
      have h2 := hl st1
      split
      · rename_i heq2; rw [heq2] at h2; exact h1.trans h2
      · rename_i heq2; rw [heq2] at h2; exact h1.trans h2
  · simp only [compareEq, if_true]
    have h1 := hl st
    split
    · rename_i heq; rw [heq] at h1; exact h1
    · rename_i l st1 heq
      rw [heq] at h1
      have h2 := hr st1
      split
      · rename_i heq2; rw [heq2] at h2; exact h1.trans h2
      · rename_i heq2; rw [heq2] at h2; exact h1.trans h2

theorem applyOperator_Keeps (value : Str) (evalLeft evalRight : Interp → Except Str Str × Interp)
    (hl : ∀ st : Interp, st.Keeps (evalLeft st).2)
    (hr : ∀ st : Interp, st.Keeps (evalRight st).2) (st : Interp) :
    st.Keeps (applyOperator value evalLeft evalRight st).2 := by
  simp only [applyOperator]
  have h1 := hl st
  split
  · rename_i heq; rw [heq] at h1; exact h1
  · rename_i l st1 heq
    rw [heq] at h1
    have h2 := hr st1
    split
    · rename_i heq2; rw [heq2] at h2; exact h1.trans h2
    · rename_i heq2
      rw [heq2] at h2
      have h3 := h1.trans h2
      split
      · exact h3
      · split
        · exact h3
        · split
          · exact h3
          · exact h3

theorem assignTo_Keeps (name : Str) (evalRight : Interp → Except Str Str × Interp)
    (hr : ∀ st : Interp, st.Keeps (evalRight st).2) (st : Interp) (hnew : st.symbol_table name = none) :
    st.Keeps (assignTo name evalRight st).2 := by
  simp only [assignTo]
  have h1 := hr st
  split
  · rename_i heq; rw [heq] at h1; exact h1
  · rename_i rhs st1 heq
    rw [heq] at h1
    intro k v hk
    have hne : k ≠ name := by
      rintro rfl
      rw [hnew] at hk
      simp at hk
    simp only [Interp.print, Interp.assign, if_neg hne]
    exact h1 k v hk

/-- Evaluating a tree whose `VARIABLE` nodes carry words changes no binding
that was there before, whether it returns or throws. -/
theorem evaluate_tree_Keeps (leftFirst : Bool) (tree : Node) :
    tree.VarsOk → ∀ st : Interp, st.Keeps (evaluate_tree leftFirst tree st).2 := by
  induction tree with
  | null => intro _ st; exact Interp.Keeps.refl st
  | mk type value left right ihl ihr =>
    intro hok st
    obtain ⟨_, hokl, hokr⟩ := hok
    have hl := ihl hokl
    have hr := ihr hokr
    cases type with
    | NUMBER => exact Interp.Keeps.refl st
    | VARIABLE =>
      simp only [evaluate_tree]
      split <;> exact Interp.Keeps.refl st
    | OPERATOR =>
      simp only [evaluate_tree]
      split
      · split
        · rename_i name l r
          split
          · rename_i hnot
            apply assignTo_Keeps name _ hr st
            have hword : is_variable name = true := hokl.1 rfl
            simp only [is_variable_in_program, hword, Bool.true_and, Bool.not_eq_true] at hnot
            cases hv : st.symbol_table name with
            | none => rfl
            | some v => rw [hv] at hnot; simp at hnot
          · exact compareEq_Keeps leftFirst _ _ hl hr st
        · exact compareEq_Keeps leftFirst _ _ hl hr st
      · exact applyOperator_Keeps value _ _ hl hr st

/-! ## The symbol table only grows, and effects before a throw persist -/

/-- C9. On a line that `generate_tree` parses to a tree, whatever is bound
before `execute` is bound to the same value after it, whether `execute` returns
or throws, and in either order of evaluating the two sides of a comparison. -/
theorem C9_environment_growth_only (leftFirst : Bool) (st : Interp) (line : Str) (tree : Node)
    (hparse : generate_tree line = some tree) (k v : Str) (hk : st.symbol_table k = some v) :
    (evaluate_tree leftFirst tree st).2.symbol_table k = some v ∧
      ∃ r st1, execute leftFirst line st = some (r, st1) ∧ st1.symbol_table k = some v := by
  have hkeep := evaluate_tree_Keeps leftFirst tree (generate_tree_VarsOk hparse) st k v hk
  refine ⟨hkeep, ?_⟩
  simp only [execute, hparse]
  split
  · rename_i e st1 heq
    rw [heq] at hkeep
    exact ⟨_, _, rfl, hkeep⟩
  · rename_i res st1 heq
    rw [heq] at hkeep
    exact ⟨_, _, rfl, hkeep⟩

/-- C9 on the line `x = ~(x = T)`, whose right-hand side holds an assignment,
in a state where `x` is bound to `F`: `x` is still bound to `F` afterwards. -/
theorem C9_environment_growth_only_witness :
    (evaluate_tree true
        (Node.mk NodeType.OPERATOR EQ (Node.leaf NodeType.VARIABLE "x".toList)
          (Node.mk NodeType.OPERATOR NOT
            (Node.mk NodeType.OPERATOR EQ (Node.leaf NodeType.VARIABLE "x".toList)
              (Node.leaf NodeType.NUMBER T))
            Node.null))
        (Interp.fresh.assign "x".toList F)).2.symbol_table "x".toList = some F ∧
      ∃ r st1, execute true "x = ~(x = T)".toList (Interp.fresh.assign "x".toList F) = some (r, st1) ∧
        st1.symbol_table "x".toList = some F :=
  C9_environment_growth_only true (Interp.fresh.assign "x".toList F) "x = ~(x = T)".toList
    (Node.mk NodeType.OPERATOR EQ (Node.leaf NodeType.VARIABLE "x".toList)
      (Node.mk NodeType.OPERATOR NOT
        (Node.mk NodeType.OPERATOR EQ (Node.leaf NodeType.VARIABLE "x".toList)
          (Node.leaf NodeType.NUMBER T))
        Node.null))
    (by decide) "x".toList F (by simp [Interp.assign])

/-- The line `x = b & y`, for words `x`, `y` and a literal `b`, has the five
tokens `x`, `=`, `b`, `&`, `y`. -/
theorem tokenize_assign_and (x b y : Str) (hx : is_variable x = true) (hxlet : x.take 3 ≠ VAR)
    (hy : is_variable y = true) (hylet : y.take 3 ≠ VAR) (hb : b = T ∨ b = F) :
    tokenize (x ++ " = ".toList ++ b ++ " & ".toList ++ y) = [x, EQ, b, AND, y] := by
  have hbword : is_variable b = true := by rcases hb with rfl | rfl <;> decide
  have hblet : b.take 3 ≠ VAR := by rcases hb with rfl | rfl <;> decide
  have h1 : x ++ " = ".toList ++ b ++ " & ".toList ++ y =
      x ++ (' ' :: '=' :: ' ' :: (b ++ (' ' :: '&' :: ' ' :: y))) := by simp
  rw [h1, tokenize_word x _ hx hxlet (by simp [isalnum, isalpha]),
    tokenize_space _ _ (by decide), tokenize_symbol _ _ (by decide) (by decide),
    tokenize_space _ _ (by decide), tokenize_word b _ hbword hblet (by simp [isalnum, isalpha]),
    tokenize_space _ _ (by decide), tokenize_symbol _ _ (by decide) (by decide),
    tokenize_space _ _ (by decide), tokenize_last_word y hy hylet]
  rfl

/-- The tree of the line `x = b & y`: an `&` node over the `=` node of `x` and
`b`, and the variable `y`. -/
theorem generate_tree_assign_and (x b y : Str) (hx : is_variable x = true)
    (hxsign : is_sign x = false) (hxlet : x.take 3 ≠ VAR) (hy : is_variable y = true)
    (hysign : is_sign y = false) (hylet : y.take 3 ≠ VAR) (hb : b = T ∨ b = F) :
    generate_tree (x ++ " = ".toList ++ b ++ " & ".toList ++ y) =
      some (Node.mk NodeType.OPERATOR AND
        (Node.mk NodeType.OPERATOR EQ (Node.leaf NodeType.VARIABLE x)
          (Node.leaf NodeType.NUMBER b))
        (Node.leaf NodeType.VARIABLE y)) := by
  simp only [generate_tree, tokenize_assign_and x b y hx hxlet hy hylet hb, parse, parseTokens,
    parseToken_variable x _ _ hxsign hx, parseToken_variable y _ _ hysign hy,
    parseToken_literal b hb, parseToken_operator EQ _ _ (Or.inr (Or.inr (Or.inl rfl))),
    parseToken_operator AND _ _ (Or.inl rfl)]
  rfl

/-- C10. For two different variable names `x` and `y`, both not bound, and a
literal `b`, the line `x = b & y` parses to an `&` node over `x = b` and `y`.
Its evaluation first binds `x` to `b` and prints `x: `, then throws
"Undefined variable: 'y'"; the state after the throw has `x` bound to `b` and
every other binding as before. -/
theorem C10_effects_before_throw_persist (leftFirst : Bool) (st : Interp) (x y b : Str)
    (hx : is_variable x = true) (hxsign : is_sign x = false) (hxlet : x.take 3 ≠ VAR)
    (hy : is_variable y = true) (hysign : is_sign y = false) (hylet : y.take 3 ≠ VAR)
    (hxy : x ≠ y) (hxnew : st.symbol_table x = none) (hynew : st.symbol_table y = none)
    (hb : b = T ∨ b = F) :
    generate_tree (x ++ " = ".toList ++ b ++ " & ".toList ++ y) =
        some (Node.mk NodeType.OPERATOR AND
          (Node.mk NodeType.OPERATOR EQ (Node.leaf NodeType.VARIABLE x)
            (Node.leaf NodeType.NUMBER b))
          (Node.leaf NodeType.VARIABLE y)) ∧
      execute leftFirst (x ++ " = ".toList ++ b ++ " & ".toList ++ y) st =
        some (Except.error (undefinedVariable y),
          { symbol_table := fun k => if k = x then some b else st.symbol_table k,
            cout := st.cout ++ x ++ ": ".toList }) := by
  have hp := generate_tree_assign_and x b y hx hxsign hxlet hy hysign hylet hb
  refine ⟨hp, execute_error hp ?_⟩
  have hyx : ¬ y = x := fun h => hxy h.symm
  simp [evaluate_tree, Node.leaf, applyOperator, assignTo, is_variable_in_program, hxnew, hynew,
    Interp.assign, Interp.print, hyx, AND_ne_EQ]

/-- C10 at the fresh interpreter, for the line `x = T & y`. -/
theorem C10_effects_before_throw_persist_witness :
    generate_tree ("x".toList ++ " = ".toList ++ T ++ " & ".toList ++ "y".toList) =
        some (Node.mk NodeType.OPERATOR AND
          (Node.mk NodeType.OPERATOR EQ (Node.leaf NodeType.VARIABLE "x".toList)
            (Node.leaf NodeType.NUMBER T))
          (Node.leaf NodeType.VARIABLE "y".toList)) ∧
      execute true ("x".toList ++ " = ".toList ++ T ++ " & ".toList ++ "y".toList) Interp.fresh =
        some (Except.error (undefinedVariable "y".toList),
          { symbol_table := fun k => if k = "x".toList then some T else Interp.fresh.symbol_table k,
            cout := Interp.fresh.cout ++ "x".toList ++ ": ".toList }) :=
  C10_effects_before_throw_persist true Interp.fresh "x".toList "y".toList T (by decide) (by decide)
    (by decide) (by decide) (by decide) (by decide) (by decide) rfl rfl (Or.inl rfl)

/-! ## What the parser puts into the nodes it builds -/

/-- The operator stack at the exit of the loop of line 87. -/
theorem reduceWhileOperator_fst (token : Str) (ops : List Str) :
    ∀ nodes : List Node, (reduceWhileOperator token ops nodes).1 =
      ops.dropWhile (fun top =>
        is_operator top && decide (get_precedence top ≥ get_precedence token)) := by
  induction ops with
  | nil => intro nodes; rfl
  | cons top ops ih =>
    intro nodes
    simp only [reduceWhileOperator, List.dropWhile]
    by_cases h : is_operator top = true ∧ get_precedence top ≥ get_precedence token
    · rw [if_pos h, ih]
      simp [h.1, h.2]
    · rw [if_neg h]
      have h2 : (is_operator top && decide (get_precedence top ≥ get_precedence token)) = false := by
        cases hop : is_operator top
        · simp
        · simp only [hop, true_and] at h
          simp [h]
      simp [h2]

/-- The operator stack at the exit of the loop of line 100. -/
theorem reduceWhileBracket_fst (ops : List Str) :
    ∀ nodes : List Node, (reduceWhileBracket ops nodes).1 =
      ops.dropWhile (fun top => decide (top ≠ LEFT_BRACKET)) := by
  induction ops with
  | nil => intro nodes; rfl
  | cons top ops ih =>
    intro nodes
    simp only [reduceWhileBracket, List.dropWhile]
    by_cases h : top = LEFT_BRACKET
    · simp [h]
    · rw [if_pos h, ih]
      simp [h]

theorem popNode_All {p : NodeType → Str → Prop} {nodes : List Node}
    (h : ∀ n ∈ nodes, n.All p) :
    (popNode nodes).1.All p ∧ ∀ n ∈ (popNode nodes).2, n.All p := by
  cases nodes with
  | nil => simp [popNode, Node.All]
  | cons a nodes =>
    simp only [popNode]
    exact ⟨h a (by simp), fun n hn => h n (by simp [hn])⟩

theorem reduceBracket_All {p : NodeType → Str → Prop} (op : Str)
    (hop : p NodeType.OPERATOR op) {nodes : List Node} (h : ∀ n ∈ nodes, n.All p) :
    ∀ n ∈ reduceBracket op nodes, n.All p := by
  have hr := popNode_All h
  have hl := popNode_All hr.2
  intro n hn
  simp only [reduceBracket, List.mem_cons] at hn
  rcases hn with rfl | hn
  · exact ⟨hop, hl.1, hr.1⟩
  · exact hl.2 n hn

theorem reduce_All {p : NodeType → Str → Prop} (op : Str)
    (hop : p NodeType.OPERATOR op) {nodes : List Node} (h : ∀ n ∈ nodes, n.All p) :
    ∀ n ∈ reduce op nodes, n.All p := by
  by_cases hnot : op = NOT
  · have hl := popNode_All h
    intro n hn
    simp only [reduce, hnot, ne_eq, not_true_eq_false, if_false, List.mem_cons] at hn
    rcases hn with rfl | hn
    · exact ⟨hnot ▸ hop, hl.1, trivial⟩
    · exact hl.2 n hn
  · have heq : reduce op nodes = reduceBracket op nodes := by
      simp [reduce, reduceBracket, hnot]
    rw [heq]
    exact reduceBracket_All op hop h

theorem reduceWhileOperator_All {p : NodeType → Str → Prop} (token : Str) (ops : List Str)
    (hop : ∀ o ∈ ops, is_operator o = true → p NodeType.OPERATOR o) :
    ∀ {nodes : List Node}, (∀ n ∈ nodes, n.All p) →
      ∀ n ∈ (reduceWhileOperator token ops nodes).2, n.All p := by
  induction ops with
  | nil => intro nodes h; simpa [reduceWhileOperator] using h
  | cons top ops ih =>
    intro nodes h
    simp only [reduceWhileOperator]
    split
    · rename_i hc
      exact ih (fun o ho => hop o (by simp [ho])) (reduce_All top (hop top (by simp) hc.1) h)
    · exact h

theorem reduceWhileBracket_All {p : NodeType → Str → Prop} (ops : List Str)
    (hop : ∀ o ∈ ops, o ≠ LEFT_BRACKET → p NodeType.OPERATOR o) :
    ∀ {nodes : List Node}, (∀ n ∈ nodes, n.All p) →
      ∀ n ∈ (reduceWhileBracket ops nodes).2, n.All p := by
  induction ops with
  | nil => intro nodes h; simpa [reduceWhileBracket] using h
  | cons top ops ih =>
    intro nodes h
    simp only [reduceWhileBracket]
    split
    · rename_i hc
      exact ih (fun o ho => hop o (by simp [ho])) (reduceBracket_All top (hop top (by simp) hc) h)
    · exact h

theorem reduceAll_All {p : NodeType → Str → Prop} (ops : List Str)
    (hop : ∀ o ∈ ops, p NodeType.OPERATOR o) :
    ∀ {nodes : List Node}, (∀ n ∈ nodes, n.All p) → ∀ n ∈ reduceAll ops nodes, n.All p := by
  induction ops with
  | nil => intro nodes h; simpa [reduceAll] using h
  | cons top ops ih =>
    intro nodes h
    simp only [reduceAll]
    exact ih (fun o ho => hop o (by simp [ho])) (reduce_All top (hop top (by simp)) h)

theorem OpsStackOk_dropWhile {ops : List Str} (q : Str → Bool) (h : OpsStackOk ops) :
    OpsStackOk (ops.dropWhile q) :=
  fun o ho => h o ((List.dropWhile_sublist q).subset ho)

/-- One step of the `for` loop keeps the two stacks well formed: the operator
stack holds operators and `(` only, and every node on the operand stack
satisfies `p`, when `p` holds of what the parser builds from a literal, from a
word and from an operator. -/
theorem parseToken_inv {p : NodeType → Str → Prop}
    (hnum : ∀ v, is_sign v = true → p NodeType.NUMBER v)
    (hvar : ∀ v, is_sign v = false → is_variable v = true → p NodeType.VARIABLE v)
    (hop : ∀ o, is_operator o = true → p NodeType.OPERATOR o)
    {token : Str} {ops ops1 : List Str} {nodes nodes1 : List Node}
    (hops : OpsStackOk ops) (h : ∀ n ∈ nodes, n.All p)
    (hs : parseToken token ops nodes = some (ops1, nodes1)) :
    OpsStackOk ops1 ∧ ∀ n ∈ nodes1, n.All p := by
  unfold parseToken at hs
  split at hs
  · rename_i hsign
    simp only [Option.some.injEq, Prod.mk.injEq] at hs
    rw [← hs.1, ← hs.2]
    refine ⟨hops, fun n hn => ?_⟩
    rcases List.mem_cons.mp hn with rfl | hn
    · exact ⟨hnum token hsign, trivial, trivial⟩
    · exact h n hn
  · rename_i hsign
    split at hs
    · rename_i hv
      simp only [Option.some.injEq, Prod.mk.injEq] at hs
      rw [← hs.1, ← hs.2]
      refine ⟨hops, fun n hn => ?_⟩
      rcases List.mem_cons.mp hn with rfl | hn
      · exact ⟨hvar token (by simpa using hsign) hv, trivial, trivial⟩
      · exact h n hn
    · split at hs
      · rename_i hisop
        simp only [Option.some.injEq, Prod.mk.injEq] at hs
        rw [← hs.1, ← hs.2]
        refine ⟨fun o ho => ?_, reduceWhileOperator_All token ops (fun o _ ho => hop o ho) h⟩
        rcases List.mem_cons.mp ho with rfl | ho
        · exact Or.inl hisop
        · rw [reduceWhileOperator_fst] at ho
          exact OpsStackOk_dropWhile _ hops o ho
      · split at hs
        · rename_i hlb
          simp only [Option.some.injEq, Prod.mk.injEq] at hs
          rw [← hs.1, ← hs.2]
          refine ⟨fun o ho => ?_, h⟩
          rcases List.mem_cons.mp ho with rfl | ho
          · exact Or.inr hlb
          · exact hops o ho
        · split at hs
          · have hb := reduceWhileBracket_All (p := p) ops
              (fun o ho hne => hop o ((hops o ho).resolve_right hne)) h
            have hf := reduceWhileBracket_fst ops nodes
            split at hs
            · simp at hs
            · rename_i top ops2 nodes2 heq
              simp only [Option.some.injEq, Prod.mk.injEq] at hs
              rw [← hs.1, ← hs.2]
              rw [heq] at hb hf
              refine ⟨fun o ho => ?_, hb⟩
              have hmem : o ∈ ops.dropWhile (fun top => decide (top ≠ LEFT_BRACKET)) := by
                rw [← hf]
                simp [ho]
              exact OpsStackOk_dropWhile _ hops o hmem
          · simp only [Option.some.injEq, Prod.mk.injEq] at hs
            rw [← hs.1, ← hs.2]
            exact ⟨hops, h⟩

theorem parseTokens_inv {p : NodeType → Str → Prop}
    (hnum : ∀ v, is_sign v = true → p NodeType.NUMBER v)
    (hvar : ∀ v, is_sign v = false → is_variable v = true → p NodeType.VARIABLE v)
    (hop : ∀ o, is_operator o = true → p NodeType.OPERATOR o) (tokens : List Str) :
    ∀ {ops ops1 : List Str} {nodes nodes1 : List Node}, OpsStackOk ops →
      (∀ n ∈ nodes, n.All p) → parseTokens tokens ops nodes = some (ops1, nodes1) →
      OpsStackOk ops1 ∧ ∀ n ∈ nodes1, n.All p := by
  induction tokens with
  | nil =>
    intro ops ops1 nodes nodes1 hops h hs
    simp only [parseTokens, Option.some.injEq, Prod.mk.injEq] at hs
    rw [← hs.1, ← hs.2]
    exact ⟨hops, h⟩
  | cons token tokens ih =>
    intro ops ops1 nodes nodes1 hops h hs
    simp only [parseTokens] at hs
    split at hs
    · simp at hs
    · rename_i s heq
      have h1 := @parseToken_inv p hnum hvar hop token ops s.1 nodes s.2 hops h
        (by simpa using heq)
      exact ih h1.1 h1.2 hs

/-- A parsed tree satisfies `p` at every node, when `p` holds of what the parser
builds from a literal, from a word, from an operator and from `(`. -/
theorem generate_tree_All {p : NodeType → Str → Prop}
    (hnum : ∀ v, is_sign v = true → p NodeType.NUMBER v)
    (hvar : ∀ v, is_sign v = false → is_variable v = true → p NodeType.VARIABLE v)
    (hop : ∀ o, is_operator o = true → p NodeType.OPERATOR o)
    (hlb : p NodeType.OPERATOR LEFT_BRACKET)
    {line : Str} {tree : Node} (h : generate_tree line = some tree) : tree.All p := by
  simp only [generate_tree, parse] at h
  split at h
  · simp at h
  · rename_i s heq
    have hs := @parseTokens_inv p hnum hvar hop (tokenize line) [] s.1 [] s.2
      (by simp [OpsStackOk]) (by simp) (by simpa using heq)
    have ha := reduceAll_All s.1
      (fun o ho => (hs.1 o ho).elim (hop o) (fun e => e ▸ hlb)) hs.2
    split at h
    · simp at h
    · rename_i top rest htop
      simp only [Option.some.injEq] at h
      rw [← h]
      exact ha top (by rw [htop]; simp)

/-! ## Results and stored values are `T` or `F` -/

theorem compareEq_values (leftFirst : Bool)
    (evalLeft evalRight : Interp → Except Str Str × Interp)
    (hl : ∀ st : Interp, st.ValuesOk → (evalLeft st).2.ValuesOk ∧
      ∀ res, (evalLeft st).1 = Except.ok res → res = T ∨ res = F)
    (hr : ∀ st : Interp, st.ValuesOk → (evalRight st).2.ValuesOk ∧
      ∀ res, (evalRight st).1 = Except.ok res → res = T ∨ res = F)
    (st : Interp) (h : st.ValuesOk) :
    (compareEq leftFirst evalLeft evalRight st).2.ValuesOk ∧
      ∀ res, (compareEq leftFirst evalLeft evalRight st).1 = Except.ok res →
        res = T ∨ res = F := by
  have hlit : ∀ (l r res : Str), (Except.ok (if l = r then T else F) : Except Str Str) =
      Except.ok res → res = T ∨ res = F := by
    intro l r res hres
    simp only [Except.ok.injEq] at hres
    rw [← hres]
    split
    · exact Or.inl rfl
    · exact Or.inr rfl
  cases leftFirst
  · have h1 := (hr st h).1
    rcases hR : evalRight st with ⟨_ | r, st1⟩
    · rw [hR] at h1
      simp only [compareEq, Bool.false_eq_true, if_false, hR]
      exact ⟨h1, by simp⟩
    · rw [hR] at h1
      have h2 := (hl st1 h1).1
      rcases hL : evalLeft st1 with ⟨_ | l, st2⟩
      · rw [hL] at h2
        simp only [compareEq, Bool.false_eq_true, if_false, hR, hL]
        exact ⟨h2, by simp⟩
      · rw [hL] at h2
        simp only [compareEq, Bool.false_eq_true, if_false, hR, hL]
        exact ⟨h2, hlit l r⟩
  · have h1 := (hl st h).1
    rcases hL : evalLeft st with ⟨_ | l, st1⟩
    · rw [hL] at h1
      simp only [compareEq, if_true, hL]
      exact ⟨h1, by simp⟩
    · rw [hL] at h1
      have h2 := (hr st1 h1).1
      rcases hR : evalRight st1 with ⟨_ | r, st2⟩
      · rw [hR] at h2
        simp only [compareEq, if_true, hR, hL]
        exact ⟨h2, by simp⟩
      · rw [hR] at h2
        simp only [compareEq, if_true, hR, hL]
        exact ⟨h2, hlit l r⟩

theorem applyOperator_values (value : Str)
    (evalLeft evalRight : Interp → Except Str Str × Interp)
    (hl : ∀ st : Interp, st.ValuesOk → (evalLeft st).2.ValuesOk ∧
      ∀ res, (evalLeft st).1 = Except.ok res → res = T ∨ res = F)
    (hr : ∀ st : Interp, st.ValuesOk → (evalRight st).2.ValuesOk ∧
      ∀ res, (evalRight st).1 = Except.ok res → res = T ∨ res = F)
    (st : Interp) (h : st.ValuesOk) :
    (applyOperator value evalLeft evalRight st).2.ValuesOk ∧
      ∀ res, (applyOperator value evalLeft evalRight st).1 = Except.ok res →
        res = T ∨ res = F := by
  have hlit : ∀ (c : Prop) [Decidable c] (res : Str),
      (Except.ok (if c then T else F) : Except Str Str) = Except.ok res →
        res = T ∨ res = F := by
    intro c _ res hres
    simp only [Except.ok.injEq] at hres
    rw [← hres]
    split
    · exact Or.inl rfl
    · exact Or.inr rfl
  have h1 := (hl st h).1
  rcases hL : evalLeft st with ⟨_ | l, st1⟩
  · rw [hL] at h1
    simp only [applyOperator, hL]
    exact ⟨h1, by simp⟩
  · rw [hL] at h1
    have h2 := (hr st1 h1).1
    rcases hR : evalRight st1 with ⟨_ | r, st2⟩
    · rw [hR] at h2
      simp only [applyOperator, hL, hR]
      exact ⟨h2, by simp⟩
    · rw [hR] at h2
      simp only [applyOperator, hL, hR]
      split
      · refine ⟨h2, fun res hres => ?_⟩
        simp only [Except.ok.injEq] at hres
        rw [← hres]
        split
        · exact Or.inr rfl
        · exact Or.inl rfl
      · split
        · exact ⟨h2, hlit _⟩
        · split
          · exact ⟨h2, hlit _⟩
          · exact ⟨h2, by simp⟩

theorem assignTo_values (name : Str) (evalRight : Interp → Except Str Str × Interp)
    (hr : ∀ st : Interp, st.ValuesOk → (evalRight st).2.ValuesOk ∧
      ∀ res, (evalRight st).1 = Except.ok res → res = T ∨ res = F)
    (st : Interp) (h : st.ValuesOk) :
    (assignTo name evalRight st).2.ValuesOk ∧
      ∀ res, (assignTo name evalRight st).1 = Except.ok res → res = T ∨ res = F := by
  have h1 := hr st h
  rcases hR : evalRight st with ⟨_ | rhs, st1⟩
  · rw [hR] at h1
    simp only [assignTo, hR]
    exact ⟨h1.1, by simp⟩
  · rw [hR] at h1
    have hlit : rhs = T ∨ rhs = F := h1.2 rhs rfl
    simp only [assignTo, hR]
    refine ⟨?_, fun res hres => ?_⟩
    · intro k v hk
      simp only [Interp.print, Interp.assign] at hk
      split at hk
      · simp only [Option.some.injEq] at hk
        rw [← hk]
        exact hlit
      · exact h1.1 k v hk
    · simp only [Except.ok.injEq] at hres
      rw [← hres]
      exact hlit

/-- Evaluating a tree whose `NUMBER` nodes carry `T` or `F`, in a state whose
stored values are `T` or `F`, returns `T` or `F` if it returns, and leaves a
state whose stored values are `T` or `F`. -/
theorem evaluate_tree_values (leftFirst : Bool) (tree : Node) :
    tree.All (fun type value => type = NodeType.NUMBER → value = T ∨ value = F) →
      ∀ st : Interp, st.ValuesOk → (evaluate_tree leftFirst tree st).2.ValuesOk ∧
        ∀ res, (evaluate_tree leftFirst tree st).1 = Except.ok res → res = T ∨ res = F := by
  induction tree with
  | null =>
    intro _ st h
    simp only [evaluate_tree]
    exact ⟨h, fun res hres => by simp only [Except.ok.injEq] at hres; exact Or.inr hres.symm⟩
  | mk type value left right ihl ihr =>
    intro hok st h
    obtain ⟨hnum, hokl, hokr⟩ := hok
    have hl := ihl hokl
    have hr := ihr hokr
    cases type with
    | NUMBER =>
      simp only [evaluate_tree]
      exact ⟨h, fun res hres => by
        simp only [Except.ok.injEq] at hres; rw [← hres]; exact hnum rfl⟩
    | VARIABLE =>
      simp only [evaluate_tree]
      split
      · rename_i hin
        refine ⟨h, fun res hres => ?_⟩
        simp only [Except.ok.injEq] at hres
        rw [← hres]
        cases hv : st.symbol_table value with
        | none => simp [is_variable_in_program, hv] at hin
        | some v => exact h value v hv
      · exact ⟨h, by simp⟩
    | OPERATOR =>
      simp only [evaluate_tree]
      split
      · split
        · split
          · exact assignTo_values _ _ hr st h
          · exact compareEq_values leftFirst _ _ hl hr st h
        · exact compareEq_values leftFirst _ _ hl hr st h
      · exact applyOperator_values value _ _ hl hr st h

/-- A call of `execute` keeps the stored values `T` or `F`. -/
theorem execute_values {leftFirst : Bool} {line : Str} {st st1 : Interp} {r : Except Str Int}
    (h : st.ValuesOk) (he : execute leftFirst line st = some (r, st1)) : st1.ValuesOk := by
  simp only [execute] at he
  split at he
  · simp at he
  · rename_i tree hp
    have hnum : tree.All (fun type value => type = NodeType.NUMBER → value = T ∨ value = F) :=
      generate_tree_All (fun v hv _ => by simpa [is_sign] using hv) (fun _ _ _ h => by simp at h)
        (fun _ _ h => by simp at h) (fun h => by simp at h) hp
    have hv := (evaluate_tree_values leftFirst tree hnum st h).1
    split at he
    · rename_i e st2 heq
      rw [heq] at hv
      simp only [Option.some.injEq, Prod.mk.injEq] at he
      rw [← he.2]
      exact hv
    · rename_i res st2 heq
      rw [heq] at hv
      simp only [Option.some.injEq, Prod.mk.injEq] at he
      rw [← he.2]
      exact hv

theorem Reachable.valuesOk {st : Interp} (h : Reachable st) : st.ValuesOk := by
  induction h with
  | fresh => intro k v hk; simp [Interp.fresh] at hk
  | step leftFirst line r _ he ih => exact execute_values ih he

/-- C11. In every state reachable from the fresh interpreter by calls of
`execute`, returning or throwing, every stored value is `T` or `F`; and on every
line that parses, what `evaluate_tree` returns in such a state, if it returns,
is `T` or `F`, and the stored values are `T` or `F` afterwards as well. -/
theorem C11_results_and_values_boolean (st : Interp) (hreach : Reachable st) :
    (∀ k v, st.symbol_table k = some v → v = T ∨ v = F) ∧
      ∀ (leftFirst : Bool) (line : Str) (tree : Node) (res : Str) (st1 : Interp),
        generate_tree line = some tree →
        evaluate_tree leftFirst tree st = (Except.ok res, st1) →
        (res = T ∨ res = F) ∧ ∀ k v, st1.symbol_table k = some v → v = T ∨ v = F := by
  have hv := hreach.valuesOk
  refine ⟨hv, ?_⟩
  intro leftFirst line tree res st1 hp he
  have hnum : tree.All (fun type value => type = NodeType.NUMBER → value = T ∨ value = F) :=
    generate_tree_All (fun v hv _ => by simpa [is_sign] using hv) (fun _ _ _ h => by simp at h)
      (fun _ _ h => by simp at h) (fun h => by simp at h) hp
  have h := evaluate_tree_values leftFirst tree hnum st hv
  rw [he] at h
  exact ⟨h.2 res rfl, h.1⟩

/-- C11 at the state the line `x = T` leaves behind in a fresh session. -/
theorem C11_results_and_values_boolean_witness :
    (∀ k v, (Interp.mk (fun k => if k = "x".toList then some T else none)
        "x: T\n".toList).symbol_table k = some v → v = T ∨ v = F) ∧
      ∀ (leftFirst : Bool) (line : Str) (tree : Node) (res : Str) (st1 : Interp),
        generate_tree line = some tree →
        evaluate_tree leftFirst tree
          (Interp.mk (fun k => if k = "x".toList then some T else none) "x: T\n".toList) =
            (Except.ok res, st1) →
        (res = T ∨ res = F) ∧ ∀ k v, st1.symbol_table k = some v → v = T ∨ v = F :=
  C11_results_and_values_boolean
    (Interp.mk (fun k => if k = "x".toList then some T else none) "x: T\n".toList)
    (Reachable.step true "x = T".toList (Except.ok 0) Reachable.fresh rfl)

/-! ## The keyword `let` and words that begin with it -/

/-- C12, as the code behaves. Before a line `s` that is not empty, `let` and a
space produce no token: `let ` followed by `s` has the tokens of `s`. -/
theorem C12_let_is_skipped_before_text (s : Str) (hs : s ≠ []) :
    tokenize ("let ".toList ++ s) = tokenize s := by
  cases s with
  | nil => exact absurd rfl hs
  | cons c cs =>
    have hfuel : tokenizeLoop (cs.length + 3) (c :: cs) = tokenizeLoop (c :: cs).length (c :: cs) :=
      tokenizeLoop_fuel _ _ _ (by simp) (le_refl _)
    have h : tokenize ("let ".toList ++ c :: cs) = tokenizeLoop (cs.length + 3) (c :: cs) := by
      simp [tokenize, tokenizeLoop, isspace, VAR]
    rw [h, hfuel, tokenize]

/-- C12 on the line `x = T`: `let x = T` has the tokens of `x = T`. -/
theorem C12_let_is_skipped_before_text_witness :
    tokenize ("let ".toList ++ "x = T".toList) = tokenize "x = T".toList :=
  C12_let_is_skipped_before_text "x = T".toList (by decide)

/-- C12 fails as stated at the empty line: `let ` alone has the token `let`,
the empty line has none. -/
theorem C12_let_alone_is_a_token :
    tokenize ("let ".toList ++ "".toList) = ["let".toList] ∧ tokenize "".toList = [] ∧
      tokenize ("let ".toList ++ "".toList) ≠ tokenize "".toList := by
  decide

/-- C13, as the code behaves. For a literal `b` the line `(~b)` parses to a `~`
node whose left child is `nullptr` and whose right child is `b`: the loop of the
`)` branch pops two operands for `~` as for any operator. The absent left child
evaluates to `F`, so the line evaluates to `T` whatever `b` is, while the line
`~b` evaluates to the negation of `b`. At `b = T` the two lines print `T` and
`F`. -/
theorem C13_bracketed_not_is_binary (leftFirst : Bool) (st : Interp) (b : Bool) :
    generate_tree ("(~".toList ++ literal b ++ ")".toList) =
        some (Node.mk NodeType.OPERATOR NOT Node.null (Node.leaf NodeType.NUMBER (literal b))) ∧
      execute leftFirst ("(~".toList ++ literal b ++ ")".toList) st =
        some (Except.ok 0,
          { symbol_table := st.symbol_table, cout := st.cout ++ T ++ "\n".toList }) ∧
      generate_tree ("~".toList ++ literal b) =
        some (Node.mk NodeType.OPERATOR NOT (Node.leaf NodeType.NUMBER (literal b)) Node.null) ∧
      execute leftFirst ("~".toList ++ literal b) st =
        some (Except.ok 0,
          { symbol_table := st.symbol_table, cout := st.cout ++ literal (!b) ++ "\n".toList }) ∧
      execute leftFirst "(~T)".toList st =
        some (Except.ok 0,
          { symbol_table := st.symbol_table, cout := st.cout ++ T ++ "\n".toList }) := by
  cases leftFirst <;> cases b <;> exact ⟨rfl, rfl, rfl, rfl, rfl⟩

/-! ## Associativity and the precedence of `=` -/

theorem parseToken_operand (token : Str) (ops : List Str) (nodes : List Node)
    (h : is_variable token = true) :
    parseToken token ops nodes = some (ops, operandLeaf token :: nodes) := by
  cases hs : is_sign token <;> simp [parseToken, operandLeaf, hs, h]

/-- C14. For a binary operator `op` and operand tokens `a`, `b`, `c` (literals
or words), the token sequence `a op b op c` parses to the `op` node whose left
child is the `op` node over `a` and `b` and whose right child is the leaf `c`. -/
theorem C14_binary_operators_left_associative (op a b c : Str)
    (hop : op = AND ∨ op = OR ∨ op = EQ) (ha : is_variable a = true)
    (hb : is_variable b = true) (hc : is_variable c = true) :
    parse [a, op, b, op, c] =
      some (Node.mk NodeType.OPERATOR op
        (Node.mk NodeType.OPERATOR op (operandLeaf a) (operandLeaf b)) (operandLeaf c)) := by
  have hop4 : op = AND ∨ op = OR ∨ op = EQ ∨ op = NOT := by
    rcases hop with h | h | h
    · exact Or.inl h
    · exact Or.inr (Or.inl h)
    · exact Or.inr (Or.inr (Or.inl h))
  simp only [parse, parseTokens, parseToken_operand a _ _ ha, parseToken_operand b _ _ hb,
    parseToken_operand c _ _ hc, parseToken_operator op _ _ hop4]
  rcases hop with rfl | rfl | rfl <;> rfl

/-- C14 on the tokens of `x = y = T`. -/
theorem C14_binary_operators_left_associative_witness :
    parse ["x".toList, EQ, "y".toList, EQ, T] =
      some (Node.mk NodeType.OPERATOR EQ
        (Node.mk NodeType.OPERATOR EQ (operandLeaf "x".toList) (operandLeaf "y".toList))
        (operandLeaf T)) :=
  C14_binary_operators_left_associative EQ "x".toList "y".toList T (Or.inr (Or.inr rfl))
    (by decide) (by decide) (by decide)

/-- The line `x = b c y`, for words `x`, `y`, a literal `b` and a symbol `c`
between two spaces, has the five tokens `x`, `=`, `b`, `c`, `y`. -/
theorem tokenize_assign_op (x b y : Str) (c : Char) (hx : is_variable x = true)
    (hxlet : x.take 3 ≠ VAR) (hy : is_variable y = true) (hylet : y.take 3 ≠ VAR)
    (hb : b = T ∨ b = F) (hcs : isspace c = false) (hca : isalpha c = false) :
    tokenize (x ++ " = ".toList ++ b ++ [' ', c, ' '] ++ y) = [x, EQ, b, [c], y] := by
  have hbword : is_variable b = true := by rcases hb with rfl | rfl <;> decide
  have hblet : b.take 3 ≠ VAR := by rcases hb with rfl | rfl <;> decide
  have h1 : x ++ " = ".toList ++ b ++ [' ', c, ' '] ++ y =
      x ++ (' ' :: '=' :: ' ' :: (b ++ (' ' :: c :: ' ' :: y))) := by simp
  rw [h1, tokenize_word x _ hx hxlet (by simp [isalnum, isalpha]),
    tokenize_space _ _ (by decide), tokenize_symbol _ _ (by decide) (by decide),
    tokenize_space _ _ (by decide), tokenize_word b _ hbword hblet (by simp [isalnum, isalpha]),
    tokenize_space _ _ (by decide), tokenize_symbol _ _ hcs hca,
    tokenize_space _ _ (by decide), tokenize_last_word y hy hylet]
  rfl

theorem AND_ne_NOT : AND ≠ NOT := by decide

theorem OR_ne_EQ : OR ≠ EQ := by decide

theorem OR_ne_NOT : OR ≠ NOT := by decide

theorem OR_ne_AND : OR ≠ AND := by decide

theorem F_ne_T : F ≠ T := by decide

theorem is_variable_literal (b : Bool) : is_variable (literal b) = true := by
  cases b <;> decide

theorem literal_take_ne_VAR (b : Bool) : (literal b).take 3 ≠ VAR := by
  cases b <;> decide

/-- C15. For a variable name `x` that is not bound and literals `a`, `b`, the
line `x = a & b` parses to an `&` node over `x = a` and `b`: it binds `x` to
`a` and evaluates to the spelling of `a ∧ b`. Likewise `x = a | b` parses to an
`|` node over `x = a` and `b`, binds `x` to `a` and evaluates to the spelling of
`a ∨ b`. No other binding changes; `execute` prints `x: ` and the result. -/
theorem C15_eq_binds_tighter_than_and_or (leftFirst : Bool) (st : Interp) (x : Str) (a b : Bool)
    (hx : is_variable x = true) (hsign : is_sign x = false) (hlet : x.take 3 ≠ VAR)
    (hnew : st.symbol_table x = none) :
    (generate_tree (x ++ " = ".toList ++ literal a ++ " & ".toList ++ literal b) =
        some (Node.mk NodeType.OPERATOR AND
          (Node.mk NodeType.OPERATOR EQ (Node.leaf NodeType.VARIABLE x)
            (Node.leaf NodeType.NUMBER (literal a)))
          (Node.leaf NodeType.NUMBER (literal b))) ∧
      execute leftFirst (x ++ " = ".toList ++ literal a ++ " & ".toList ++ literal b) st =
        some (Except.ok 0,
          { symbol_table := fun k => if k = x then some (literal a) else st.symbol_table k,
            cout := st.cout ++ x ++ ": ".toList ++ literal (a && b) ++ "\n".toList })) ∧
    (generate_tree (x ++ " = ".toList ++ literal a ++ " | ".toList ++ literal b) =
        some (Node.mk NodeType.OPERATOR OR
          (Node.mk NodeType.OPERATOR EQ (Node.leaf NodeType.VARIABLE x)
            (Node.leaf NodeType.NUMBER (literal a)))
          (Node.leaf NodeType.NUMBER (literal b))) ∧
      execute leftFirst (x ++ " = ".toList ++ literal a ++ " | ".toList ++ literal b) st =
        some (Except.ok 0,
          { symbol_table := fun k => if k = x then some (literal a) else st.symbol_table k,
            cout := st.cout ++ x ++ ": ".toList ++ literal (a || b) ++ "\n".toList })) := by
  have hlit : ∀ v : Bool, literal v = T ∨ literal v = F := by
    intro v; cases v
    · exact Or.inr rfl
    · exact Or.inl rfl
  have htok : ∀ c : Char, isspace c = false → isalpha c = false →
      tokenize (x ++ " = ".toList ++ literal a ++ [' ', c, ' '] ++ literal b) =
        [x, EQ, literal a, [c], literal b] := fun c hcs hca =>
    tokenize_assign_op x (literal a) (literal b) c hx hlet (is_variable_literal b)
      (literal_take_ne_VAR b) (hlit a) hcs hca
  have hpand : generate_tree (x ++ " = ".toList ++ literal a ++ " & ".toList ++ literal b) =
      some (Node.mk NodeType.OPERATOR AND
        (Node.mk NodeType.OPERATOR EQ (Node.leaf NodeType.VARIABLE x)
          (Node.leaf NodeType.NUMBER (literal a)))
        (Node.leaf NodeType.NUMBER (literal b))) := by
    have h := htok '&' (by decide) (by decide)
    simp only [generate_tree]
    rw [show " & ".toList = [' ', '&', ' '] from rfl, h]
    simp only [parse, parseTokens, parseToken_variable x _ _ hsign hx,
      parseToken_literal _ (hlit a), parseToken_literal _ (hlit b),
      parseToken_operator EQ _ _ (Or.inr (Or.inr (Or.inl rfl))),
      show ['&'] = AND from rfl, parseToken_operator AND _ _ (Or.inl rfl)]
    rfl
  have hpor : generate_tree (x ++ " = ".toList ++ literal a ++ " | ".toList ++ literal b) =
      some (Node.mk NodeType.OPERATOR OR
        (Node.mk NodeType.OPERATOR EQ (Node.leaf NodeType.VARIABLE x)
          (Node.leaf NodeType.NUMBER (literal a)))
        (Node.leaf NodeType.NUMBER (literal b))) := by
    have h := htok '|' (by decide) (by decide)
    simp only [generate_tree]
    rw [show " | ".toList = [' ', '|', ' '] from rfl, h]
    simp only [parse, parseTokens, parseToken_variable x _ _ hsign hx,
      parseToken_literal _ (hlit a), parseToken_literal _ (hlit b),
      parseToken_operator EQ _ _ (Or.inr (Or.inr (Or.inl rfl))),
      show ['|'] = OR from rfl, parseToken_operator OR _ _ (Or.inr (Or.inl rfl))]
    rfl
  refine ⟨⟨hpand, ?_⟩, ⟨hpor, ?_⟩⟩
  · have he : evaluate_tree leftFirst (Node.mk NodeType.OPERATOR AND
          (Node.mk NodeType.OPERATOR EQ (Node.leaf NodeType.VARIABLE x)
            (Node.leaf NodeType.NUMBER (literal a)))
          (Node.leaf NodeType.NUMBER (literal b))) st =
        (Except.ok (literal (a && b)),
          { symbol_table := fun k => if k = x then some (literal a) else st.symbol_table k,
            cout := st.cout ++ x ++ ": ".toList }) := by
      cases a <;> cases b <;>
        simp [evaluate_tree, Node.leaf, applyOperator, assignTo, is_variable_in_program, hnew,
          Interp.assign, Interp.print, literal, AND_ne_EQ, AND_ne_NOT, OR_ne_EQ, OR_ne_NOT,
          OR_ne_AND, F_ne_T]
    rw [execute_ok hpand he]
    simp [Interp.print]
  · have he : evaluate_tree leftFirst (Node.mk NodeType.OPERATOR OR
          (Node.mk NodeType.OPERATOR EQ (Node.leaf NodeType.VARIABLE x)
            (Node.leaf NodeType.NUMBER (literal a)))
          (Node.leaf NodeType.NUMBER (literal b))) st =
        (Except.ok (literal (a || b)),
          { symbol_table := fun k => if k = x then some (literal a) else st.symbol_table k,
            cout := st.cout ++ x ++ ": ".toList }) := by
      cases a <;> cases b <;>
        simp [evaluate_tree, Node.leaf, applyOperator, assignTo, is_variable_in_program, hnew,
          Interp.assign, Interp.print, literal, AND_ne_EQ, AND_ne_NOT, OR_ne_EQ, OR_ne_NOT,
          OR_ne_AND, F_ne_T]
    rw [execute_ok hpor he]
    simp [Interp.print]

/-- C15 at the fresh interpreter, for the lines `x = T & F` and `x = T | F`:
`x` is bound to `T`, the results are `F` and `T`. -/
theorem C15_eq_binds_tighter_than_and_or_witness :
    (generate_tree ("x".toList ++ " = ".toList ++ literal true ++ " & ".toList ++ literal false) =
        some (Node.mk NodeType.OPERATOR AND
          (Node.mk NodeType.OPERATOR EQ (Node.leaf NodeType.VARIABLE "x".toList)
            (Node.leaf NodeType.NUMBER (literal true)))
          (Node.leaf NodeType.NUMBER (literal false))) ∧
      execute true ("x".toList ++ " = ".toList ++ literal true ++ " & ".toList ++ literal false)
          Interp.fresh =
        some (Except.ok 0,
          { symbol_table := fun k =>
              if k = "x".toList then some (literal true) else Interp.fresh.symbol_table k,
            cout := Interp.fresh.cout ++ "x".toList ++ ": ".toList ++ literal (true && false) ++
              "\n".toList })) ∧
    (generate_tree ("x".toList ++ " = ".toList ++ literal true ++ " | ".toList ++ literal false) =
        some (Node.mk NodeType.OPERATOR OR
          (Node.mk NodeType.OPERATOR EQ (Node.leaf NodeType.VARIABLE "x".toList)
            (Node.leaf NodeType.NUMBER (literal true)))
          (Node.leaf NodeType.NUMBER (literal false))) ∧
      execute true ("x".toList ++ " = ".toList ++ literal true ++ " | ".toList ++ literal false)
          Interp.fresh =
        some (Except.ok 0,
          { symbol_table := fun k =>
              if k = "x".toList then some (literal true) else Interp.fresh.symbol_table k,
            cout := Interp.fresh.cout ++ "x".toList ++ ": ".toList ++ literal (true || false) ++
              "\n".toList })) :=
  C15_eq_binds_tighter_than_and_or true Interp.fresh "x".toList true false (by decide)
    (by decide) (by decide) rfl

/-! ## No short circuit -/

/-- The line `b c y`, for a literal `b`, a symbol `c` between two spaces and a
word `y`, has the three tokens `b`, `c`, `y`. -/
theorem tokenize_literal_op (b y : Str) (c : Char) (hb : b = T ∨ b = F)
    (hy : is_variable y = true) (hylet : y.take 3 ≠ VAR)
    (hcs : isspace c = false) (hca : isalpha c = false) :
    tokenize (b ++ [' ', c, ' '] ++ y) = [b, [c], y] := by
  have hbword : is_variable b = true := by rcases hb with rfl | rfl <;> decide
  have hblet : b.take 3 ≠ VAR := by rcases hb with rfl | rfl <;> decide
  have h1 : b ++ [' ', c, ' '] ++ y = b ++ (' ' :: c :: ' ' :: y) := by simp
  rw [h1, tokenize_word b _ hbword hblet (by simp [isalnum, isalpha]),
    tokenize_space _ _ (by decide), tokenize_symbol _ _ hcs hca,
    tokenize_space _ _ (by decide), tokenize_last_word y hy hylet]

/-- C16. For a variable name `y` that is not bound, the line `F & y` parses to
an `&` node over `F` and `y`, and the line `T | y` to an `|` node over `T` and
`y`; evaluating either one evaluates the right operand too and throws
"Undefined variable: 'y'", leaving the state as it was. -/
theorem C16_and_or_never_short_circuit (leftFirst : Bool) (st : Interp) (y : Str)
    (hy : is_variable y = true) (hsign : is_sign y = false) (hlet : y.take 3 ≠ VAR)
    (hnew : st.symbol_table y = none) :
    (generate_tree ("F & ".toList ++ y) =
        some (Node.mk NodeType.OPERATOR AND (Node.leaf NodeType.NUMBER F)
          (Node.leaf NodeType.VARIABLE y)) ∧
      execute leftFirst ("F & ".toList ++ y) st = some (Except.error (undefinedVariable y), st)) ∧
    (generate_tree ("T | ".toList ++ y) =
        some (Node.mk NodeType.OPERATOR OR (Node.leaf NodeType.NUMBER T)
          (Node.leaf NodeType.VARIABLE y)) ∧
      execute leftFirst ("T | ".toList ++ y) st = some (Except.error (undefinedVariable y), st)) := by
  have hpand : generate_tree ("F & ".toList ++ y) =
      some (Node.mk NodeType.OPERATOR AND (Node.leaf NodeType.NUMBER F)
        (Node.leaf NodeType.VARIABLE y)) := by
    have h := tokenize_literal_op F y '&' (Or.inr rfl) hy hlet (by decide) (by decide)
    simp only [generate_tree]
    rw [show "F & ".toList ++ y = F ++ [' ', '&', ' '] ++ y from rfl, h]
    simp only [parse, parseTokens, parseToken_variable y _ _ hsign hy, parseToken_F,
      show ['&'] = AND from rfl, parseToken_operator AND _ _ (Or.inl rfl)]
    rfl
  have hpor : generate_tree ("T | ".toList ++ y) =
      some (Node.mk NodeType.OPERATOR OR (Node.leaf NodeType.NUMBER T)
        (Node.leaf NodeType.VARIABLE y)) := by
    have h := tokenize_literal_op T y '|' (Or.inl rfl) hy hlet (by decide) (by decide)
    simp only [generate_tree]
    rw [show "T | ".toList ++ y = T ++ [' ', '|', ' '] ++ y from rfl, h]
    simp only [parse, parseTokens, parseToken_variable y _ _ hsign hy, parseToken_T,
      show ['|'] = OR from rfl, parseToken_operator OR _ _ (Or.inr (Or.inl rfl))]
    rfl
  refine ⟨⟨hpand, execute_error hpand ?_⟩, ⟨hpor, execute_error hpor ?_⟩⟩
  · simp [evaluate_tree, Node.leaf, applyOperator, is_variable_in_program, hnew, AND_ne_EQ]
  · simp [evaluate_tree, Node.leaf, applyOperator, is_variable_in_program, hnew, OR_ne_EQ]

/-- C16 at the fresh interpreter, for the lines `F & y` and `T | y`. -/
theorem C16_and_or_never_short_circuit_witness :
    (generate_tree ("F & ".toList ++ "y".toList) =
        some (Node.mk NodeType.OPERATOR AND (Node.leaf NodeType.NUMBER F)
          (Node.leaf NodeType.VARIABLE "y".toList)) ∧
      execute true ("F & ".toList ++ "y".toList) Interp.fresh =
        some (Except.error (undefinedVariable "y".toList), Interp.fresh)) ∧
    (generate_tree ("T | ".toList ++ "y".toList) =
        some (Node.mk NodeType.OPERATOR OR (Node.leaf NodeType.NUMBER T)
          (Node.leaf NodeType.VARIABLE "y".toList)) ∧
      execute true ("T | ".toList ++ "y".toList) Interp.fresh =
        some (Except.error (undefinedVariable "y".toList), Interp.fresh)) :=
  C16_and_or_never_short_circuit true Interp.fresh "y".toList (by decide) (by decide)
    (by decide) rfl

/-! ## Words are single tokens, unless `let` is skipped -/

/-- C18, as the code behaves. A word (a letter followed by letters and digits)
that is the whole line is one token, unless it begins with `let` and is longer
than four characters; so `let` and `letx` are tokens. -/
theorem C18_word_is_one_token (w : Str) (hw : is_variable w = true)
    (hlet : ¬ (4 < w.length ∧ w.take 3 = VAR)) : tokenize w = [w] := by
  by_cases h3 : w.take 3 = VAR
  · have hlen : w.length ≤ 4 := by
      by_contra hc
      exact hlet ⟨by omega, h3⟩
    rcases w with _ | ⟨a, _ | ⟨b, _ | ⟨c, _ | ⟨d, _ | ⟨e, w⟩⟩⟩⟩⟩
    · simp [is_variable] at hw
    · simp [VAR] at h3
    · simp [VAR] at h3
    · simp only [VAR, List.take] at h3
      rw [h3]
      decide
    · simp only [VAR, List.take, String.toList, List.cons.injEq, and_true] at h3
      obtain ⟨rfl, rfl, rfl⟩ := h3
      have hd : isalnum d = true := by
        simp only [is_variable, List.all_cons, Bool.and_eq_true] at hw
        exact hw.2.2.2.2.1
      have h1 : isspace 'l' = false := by decide
      have h2 : isalpha 'l' = true := by decide
      have h3 : isalnum 'l' = true := by decide
      have h4 : isalnum 'e' = true := by decide
      have h5 : isalnum 't' = true := by decide
      simp [tokenize, tokenizeLoop, List.takeWhile, List.dropWhile, hd, h1, h2, h3, h4, h5,
        tokenizeLoop_nil]
    · simp at hlen
  · exact tokenize_last_word w hw h3

/-- C18 on the word `let`, which is one token. -/
theorem C18_word_is_one_token_witness : tokenize "let".toList = ["let".toList] :=
  C18_word_is_one_token "let".toList (by decide) (by decide)

/-- C18 fails as stated at the word `letab`: its only token is `ab`. -/
theorem C18_letab_loses_its_head :
    is_variable "letab".toList = true ∧ tokenize "letab".toList = ["ab".toList] ∧
      tokenize "letab".toList ≠ ["letab".toList] := by
  decide

/-! ## Counting the `(` on the operator stack -/

theorem count_dropWhile_of_ne (q : Str → Bool) (a : Str) (h : ∀ o, q o = true → o ≠ a)
    (l : List Str) : (l.dropWhile q).count a = l.count a := by
  induction l with
  | nil => rfl
  | cons b l ih =>
    cases hq : q b
    · simp [List.dropWhile, hq]
    · have hne : b ≠ a := h b hq
      simp [List.dropWhile, hq, ih, List.count_cons, hne]

theorem dropWhile_head_false (q : Str → Bool) (l : List Str) {a : Str} {t : List Str}
    (h : l.dropWhile q = a :: t) : q a = false := by
  induction l with
  | nil => simp at h
  | cons b l ih =>
    cases hq : q b
    · simp only [List.dropWhile, hq, List.cons.injEq] at h
      rw [← h.1]
      exact hq
    · simp only [List.dropWhile, hq] at h
      exact ih h

theorem parseToken_LEFT_BRACKET (ops : List Str) (nodes : List Node) :
    parseToken LEFT_BRACKET ops nodes = some (LEFT_BRACKET :: ops, nodes) := rfl

theorem parseToken_RIGHT_BRACKET (ops : List Str) (nodes : List Node) :
    parseToken RIGHT_BRACKET ops nodes =
      match reduceWhileBracket ops nodes with
      | ([], _) => none
      | (_ :: ops1, nodes1) => some (ops1, nodes1) := rfl

theorem is_operator_ne_LEFT_BRACKET (o : Str) (h : is_operator o = true) : o ≠ LEFT_BRACKET := by
  rintro rfl
  exact absurd h (by decide)

/-- One step of the `for` loop changes the number of `(` on the operator stack
by one up for the token `(`, one down for the token `)`, and not otherwise. -/
theorem parseToken_count {token : Str} {ops ops1 : List Str} {nodes nodes1 : List Node}
    (hs : parseToken token ops nodes = some (ops1, nodes1)) :
    ops1.count LEFT_BRACKET + (if token = RIGHT_BRACKET then 1 else 0) =
      ops.count LEFT_BRACKET + (if token = LEFT_BRACKET then 1 else 0) := by
  by_cases hl : token = LEFT_BRACKET
  · subst hl
    rw [parseToken_LEFT_BRACKET] at hs
    simp only [Option.some.injEq, Prod.mk.injEq] at hs
    rw [← hs.1]
    simp [show LEFT_BRACKET ≠ RIGHT_BRACKET by decide]
  · by_cases hr : token = RIGHT_BRACKET
    · subst hr
      rw [parseToken_RIGHT_BRACKET] at hs
      have hf := reduceWhileBracket_fst ops nodes
      split at hs
      · simp at hs
      · rename_i top ops2 nodes2 heq
        simp only [Option.some.injEq, Prod.mk.injEq] at hs
        rw [heq] at hf
        simp only at hf
        have htop : top = LEFT_BRACKET := by
          have := dropWhile_head_false _ ops hf.symm
          simpa using this
        have hc := count_dropWhile_of_ne (fun top => decide (top ≠ LEFT_BRACKET)) LEFT_BRACKET
          (fun o ho => by simpa using ho) ops
        rw [← hf, htop] at hc
        rw [← hs.1]
        simp only [List.count_cons_self] at hc
        simp [hl, hc]
    · simp only [hl, hr, if_false, Nat.add_zero]
      unfold parseToken at hs
      split at hs
      · simp only [Option.some.injEq, Prod.mk.injEq] at hs
        rw [← hs.1]
      · split at hs
        · simp only [Option.some.injEq, Prod.mk.injEq] at hs
          rw [← hs.1]
        · split at hs
          · rename_i hisop
            simp only [Option.some.injEq, Prod.mk.injEq] at hs
            rw [← hs.1, reduceWhileOperator_fst, List.count_cons_of_ne (Ne.symm hl)]
            exact count_dropWhile_of_ne _ _
              (fun o ho => is_operator_ne_LEFT_BRACKET o (by
                simp only [Bool.and_eq_true] at ho
                exact ho.1)) ops
          · simp only [hl, hr, if_false, Option.some.injEq, Prod.mk.injEq] at hs
            rw [← hs.1]

/-- One step of the `for` loop is defined unless the token is `)` and no `(`
is on the operator stack. -/
theorem parseToken_some (token : Str) (ops : List Str) (nodes : List Node)
    (h : token = RIGHT_BRACKET → 0 < ops.count LEFT_BRACKET) :
    ∃ s, parseToken token ops nodes = some s := by
  by_cases hr : token = RIGHT_BRACKET
  · subst hr
    rw [parseToken_RIGHT_BRACKET]
    have hf := reduceWhileBracket_fst ops nodes
    have hc := count_dropWhile_of_ne (fun top => decide (top ≠ LEFT_BRACKET)) LEFT_BRACKET
      (fun o ho => by simpa using ho) ops
    rw [← hf] at hc
    rcases hrw : reduceWhileBracket ops nodes with ⟨_ | ⟨top, ops2⟩, nodes2⟩
    · rw [hrw] at hc
      have := h rfl
      simp at hc
      omega
    · exact ⟨_, rfl⟩
  · unfold parseToken
    split
    · exact ⟨_, rfl⟩
    · split
      · exact ⟨_, rfl⟩
      · split
        · exact ⟨_, rfl⟩
        · split
          · exact ⟨_, rfl⟩
          · exact ⟨_, rfl⟩

/-- The `for` loop changes the number of `(` on the operator stack by the
number of `(` tokens less the number of `)` tokens. -/
theorem parseTokens_count (tokens : List Str) :
    ∀ {ops ops1 : List Str} {nodes nodes1 : List Node},
      parseTokens tokens ops nodes = some (ops1, nodes1) →
      ops1.count LEFT_BRACKET + tokens.count RIGHT_BRACKET =
        ops.count LEFT_BRACKET + tokens.count LEFT_BRACKET := by
  induction tokens with
  | nil =>
    intro ops ops1 nodes nodes1 hs
    simp only [parseTokens, Option.some.injEq, Prod.mk.injEq] at hs
    rw [← hs.1]
    simp
  | cons token tokens ih =>
    intro ops ops1 nodes nodes1 hs
    simp only [parseTokens] at hs
    split at hs
    · simp at hs
    · rename_i s heq
      have h1 := @parseToken_count token ops s.1 nodes s.2 (by simpa using heq)
      have h2 := ih hs
      simp only [List.count_cons, beq_iff_eq]
      omega

/-! ## Which exceptions evaluation can throw -/

theorem is_operator_iff (o : Str) :
    is_operator o = true ↔ o = NOT ∨ o = AND ∨ o = OR ∨ o = EQ := by
  simp only [is_operator, Bool.or_eq_true, beq_iff_eq]
  tauto

theorem undefinedVariable_ne_unknownOperator (name symbol : Str) :
    undefinedVariable name ≠ unknownOperator symbol := by
  intro h
  have h2 := congrArg (fun l => l.get? 2) h
  simp [undefinedVariable, unknownOperator] at h2

theorem compareEq_error (q : Str → Prop) (leftFirst : Bool)
    (evalLeft evalRight : Interp → Except Str Str × Interp)
    (hl : ∀ (st : Interp) (e : Str), (evalLeft st).1 = Except.error e →
      (∃ name, e = undefinedVariable name) ∨ ∃ symbol, q symbol ∧ e = unknownOperator symbol)
    (hr : ∀ (st : Interp) (e : Str), (evalRight st).1 = Except.error e →
      (∃ name, e = undefinedVariable name) ∨ ∃ symbol, q symbol ∧ e = unknownOperator symbol)
    (st : Interp) (e : Str)
    (h : (compareEq leftFirst evalLeft evalRight st).1 = Except.error e) :
    (∃ name, e = undefinedVariable name) ∨ ∃ symbol, q symbol ∧ e = unknownOperator symbol := by
  cases leftFirst
  · rcases hR : evalRight st with ⟨e1 | r, st1⟩
    · simp only [compareEq, Bool.false_eq_true, if_false, hR, Except.error.injEq] at h
      exact hr st e (by rw [hR, h])
    · rcases hL : evalLeft st1 with ⟨e2 | l, st2⟩
      · simp only [compareEq, Bool.false_eq_true, if_false, hR, hL, Except.error.injEq] at h
        exact hl st1 e (by rw [hL, h])
      · simp [compareEq, hR, hL] at h
  · rcases hL : evalLeft st with ⟨e1 | l, st1⟩
    · simp only [compareEq, if_true, hL, Except.error.injEq] at h
      exact hl st e (by rw [hL, h])
    · rcases hR : evalRight st1 with ⟨e2 | r, st2⟩
      · simp only [compareEq, if_true, hR, hL, Except.error.injEq] at h
        exact hr st1 e (by rw [hR, h])
      · simp [compareEq, hR, hL] at h

theorem applyOperator_error (q : Str → Prop) (value : Str)
    (hval : value = NOT ∨ value = AND ∨ value = OR ∨ q value)
    (evalLeft evalRight : Interp → Except Str Str × Interp)
    (hl : ∀ (st : Interp) (e : Str), (evalLeft st).1 = Except.error e →
      (∃ name, e = undefinedVariable name) ∨ ∃ symbol, q symbol ∧ e = unknownOperator symbol)
    (hr : ∀ (st : Interp) (e : Str), (evalRight st).1 = Except.error e →
      (∃ name, e = undefinedVariable name) ∨ ∃ symbol, q symbol ∧ e = unknownOperator symbol)
    (st : Interp) (e : Str)
    (h : (applyOperator value evalLeft evalRight st).1 = Except.error e) :
    (∃ name, e = undefinedVariable name) ∨ ∃ symbol, q symbol ∧ e = unknownOperator symbol := by
  rcases hL : evalLeft st with ⟨e1 | l, st1⟩
  · simp only [applyOperator, hL, Except.error.injEq] at h
    exact hl st e (by rw [hL, h])
  · rcases hR : evalRight st1 with ⟨e2 | r, st2⟩
    · simp only [applyOperator, hL, hR, Except.error.injEq] at h
      exact hr st1 e (by rw [hR, h])
    · simp only [applyOperator, hL, hR] at h
      split at h
      · simp at h
      · split at h
        · simp at h
        · split at h
          · simp at h
          · rename_i h1 h2 h3
            simp only [Except.error.injEq] at h
            rcases hval with hv | hv | hv | hv
            · exact absurd hv h1
            · exact absurd hv h2
            · exact absurd hv h3
            · exact Or.inr ⟨value, hv, h.symm⟩

theorem assignTo_error (q : Str → Prop) (name : Str)
    (evalRight : Interp → Except Str Str × Interp)
    (hr : ∀ (st : Interp) (e : Str), (evalRight st).1 = Except.error e →
      (∃ name, e = undefinedVariable name) ∨ ∃ symbol, q symbol ∧ e = unknownOperator symbol)
    (st : Interp) (e : Str) (h : (assignTo name evalRight st).1 = Except.error e) :
    (∃ name, e = undefinedVariable name) ∨ ∃ symbol, q symbol ∧ e = unknownOperator symbol := by
  rcases hR : evalRight st with ⟨e1 | r, st1⟩
  · simp only [assignTo, hR, Except.error.injEq] at h
    exact hr st e (by rw [hR, h])
  · simp [assignTo, hR] at h

/-- In a tree whose operator nodes carry one of the four operators or a symbol
that satisfies `q`, evaluation throws only for an unbound variable or for an
operator node whose symbol satisfies `q`. -/
theorem evaluate_tree_error (q : Str → Prop) (leftFirst : Bool) (tree : Node) :
    tree.All (fun type value => type = NodeType.OPERATOR →
        (value = NOT ∨ value = AND ∨ value = OR ∨ value = EQ) ∨ q value) →
      ∀ (st : Interp) (e : Str), (evaluate_tree leftFirst tree st).1 = Except.error e →
        (∃ name, e = undefinedVariable name) ∨
          ∃ symbol, q symbol ∧ e = unknownOperator symbol := by
  induction tree with
  | null => intro _ st e h; simp [evaluate_tree] at h
  | mk type value left right ihl ihr =>
    intro hok st e h
    obtain ⟨hop, hokl, hokr⟩ := hok
    have hl := ihl hokl
    have hr := ihr hokr
    cases type with
    | NUMBER => simp [evaluate_tree] at h
    | VARIABLE =>
      simp only [evaluate_tree] at h
      split at h
      · simp at h
      · simp only [Except.error.injEq] at h
        exact Or.inl ⟨value, h.symm⟩
    | OPERATOR =>
      simp only [evaluate_tree] at h
      split at h
      · split at h
        · split at h
          · exact assignTo_error q _ _ hr st e h
          · exact compareEq_error q leftFirst _ _ hl hr st e h
        · exact compareEq_error q leftFirst _ _ hl hr st e h
      · rename_i hne
        refine applyOperator_error q value ?_ _ _ hl hr st e h
        rcases hop rfl with (hv | hv | hv | hv) | hv
        · exact Or.inl hv
        · exact Or.inr (Or.inl hv)
        · exact Or.inr (Or.inr (Or.inl hv))
        · exact absurd hv hne
        · exact Or.inr (Or.inr (Or.inr hv))

theorem execute_error_inv {leftFirst : Bool} {line : Str} {st st1 : Interp} {e : Str}
    {tree : Node} (hp : generate_tree line = some tree)
    (he : execute leftFirst line st = some (Except.error e, st1)) :
    (evaluate_tree leftFirst tree st).1 = Except.error e := by
  simp only [execute, hp] at he
  split at he
  · rename_i e2 st2 heq
    simp only [Option.some.injEq, Prod.mk.injEq, Except.error.injEq] at he
    rw [heq, he.1]
  · simp at he

/-- When the tokens hold as many `)` as `(`, no `(` is left on the operator
stack after the `for` loop, and every operator node of the parsed tree carries
one of the four operators. -/
theorem generate_tree_operators {line : Str} {tree : Node}
    (hparse : generate_tree line = some tree)
    (hbal : (tokenize line).count LEFT_BRACKET = (tokenize line).count RIGHT_BRACKET) :
    tree.All (fun type value => type = NodeType.OPERATOR →
      (value = NOT ∨ value = AND ∨ value = OR ∨ value = EQ) ∨ False) := by
  simp only [generate_tree, parse] at hparse
  split at hparse
  · simp at hparse
  · rename_i s heq
    have heq2 : parseTokens (tokenize line) [] [] = some (s.1, s.2) := by simpa using heq
    have hs := @parseTokens_inv
      (fun type value => type = NodeType.OPERATOR →
        (value = NOT ∨ value = AND ∨ value = OR ∨ value = EQ) ∨ False)
      (fun _ _ h => by simp at h) (fun _ _ _ h => by simp at h)
      (fun o ho _ => Or.inl ((is_operator_iff o).mp ho))
      (tokenize line) [] s.1 [] s.2 (by simp [OpsStackOk]) (by simp) heq2
    have hc := parseTokens_count (tokenize line) heq2
    have hzero : s.1.count LEFT_BRACKET = 0 := by
      simp only [List.count_nil] at hc
      omega
    have ha := reduceAll_All s.1
      (fun o ho _ => (hs.1 o ho).elim (fun h => Or.inl ((is_operator_iff o).mp h))
        (fun h => absurd (h ▸ ho) (List.count_eq_zero.mp hzero))) hs.2
    split at hparse
    · simp at hparse
    · rename_i top rest htop
      simp only [Option.some.injEq] at hparse
      rw [← hparse]
      exact ha top (by rw [htop]; simp)

/-- C17, as the code behaves. On a line that parses, every operator node of the
tree carries one of the four operators or `(`, and `execute` throws only
"Undefined variable" or "Unknown operator: '('". When the tokens of the line
hold as many `)` as `(`, every operator node carries one of the four operators
and `execute` never throws "Unknown operator". -/
theorem C17_unknown_operator_only_for_open_bracket (line : Str) (tree : Node)
    (hparse : generate_tree line = some tree) :
    tree.All (fun type value => type = NodeType.OPERATOR →
        (value = NOT ∨ value = AND ∨ value = OR ∨ value = EQ) ∨ value = LEFT_BRACKET) ∧
      (∀ (leftFirst : Bool) (st st1 : Interp) (e : Str),
        execute leftFirst line st = some (Except.error e, st1) →
          (∃ name, e = undefinedVariable name) ∨ e = unknownOperator LEFT_BRACKET) ∧
      ((tokenize line).count LEFT_BRACKET = (tokenize line).count RIGHT_BRACKET →
        tree.All (fun type value => type = NodeType.OPERATOR →
            value = NOT ∨ value = AND ∨ value = OR ∨ value = EQ) ∧
          ∀ (leftFirst : Bool) (st st1 : Interp) (e symbol : Str),
            execute leftFirst line st = some (Except.error e, st1) →
              e ≠ unknownOperator symbol) := by
  have hall : tree.All (fun type value => type = NodeType.OPERATOR →
      (value = NOT ∨ value = AND ∨ value = OR ∨ value = EQ) ∨ value = LEFT_BRACKET) :=
    generate_tree_All (fun _ _ h => by simp at h) (fun _ _ _ h => by simp at h)
      (fun o ho _ => Or.inl ((is_operator_iff o).mp ho)) (fun _ => Or.inr rfl) hparse
  refine ⟨hall, ?_, ?_⟩
  · intro leftFirst st st1 e he
    rcases evaluate_tree_error (fun v => v = LEFT_BRACKET) leftFirst tree hall st e
      (execute_error_inv hparse he) with h | ⟨symbol, hsym, h⟩
    · exact Or.inl h
    · exact Or.inr (hsym ▸ h)
  · intro hbal
    have hops := generate_tree_operators hparse hbal
    refine ⟨?_, ?_⟩
    · clear hall
      revert hops
      generalize tree = t
      intro hops
      induction t with
      | null => trivial
      | mk type value left right ihl ihr =>
        exact ⟨fun h => (hops.1 h).resolve_right id, ihl hops.2.1, ihr hops.2.2⟩
    · intro leftFirst st st1 e symbol he
      rcases evaluate_tree_error (fun _ => False) leftFirst tree hops st e
        (execute_error_inv hparse he) with ⟨name, h⟩ | ⟨_, hf, _⟩
      · rw [h]
        exact undefinedVariable_ne_unknownOperator name symbol
      · exact absurd hf id

/-- C17 on the line `(T | F) & y`, whose brackets match. -/
theorem C17_unknown_operator_only_for_open_bracket_witness :
    (Node.mk NodeType.OPERATOR AND
        (Node.mk NodeType.OPERATOR OR (Node.leaf NodeType.NUMBER T) (Node.leaf NodeType.NUMBER F))
        (Node.leaf NodeType.VARIABLE "y".toList)).All
      (fun type value => type = NodeType.OPERATOR →
        (value = NOT ∨ value = AND ∨ value = OR ∨ value = EQ) ∨ value = LEFT_BRACKET) ∧
      (∀ (leftFirst : Bool) (st st1 : Interp) (e : Str),
        execute leftFirst "(T | F) & y".toList st = some (Except.error e, st1) →
          (∃ name, e = undefinedVariable name) ∨ e = unknownOperator LEFT_BRACKET) ∧
      ((tokenize "(T | F) & y".toList).count LEFT_BRACKET =
          (tokenize "(T | F) & y".toList).count RIGHT_BRACKET →
        (Node.mk NodeType.OPERATOR AND
            (Node.mk NodeType.OPERATOR OR (Node.leaf NodeType.NUMBER T)
              (Node.leaf NodeType.NUMBER F))
            (Node.leaf NodeType.VARIABLE "y".toList)).All
          (fun type value => type = NodeType.OPERATOR →
            value = NOT ∨ value = AND ∨ value = OR ∨ value = EQ) ∧
          ∀ (leftFirst : Bool) (st st1 : Interp) (e symbol : Str),
            execute leftFirst "(T | F) & y".toList st = some (Except.error e, st1) →
              e ≠ unknownOperator symbol) :=
  C17_unknown_operator_only_for_open_bracket "(T | F) & y".toList
    (Node.mk NodeType.OPERATOR AND
      (Node.mk NodeType.OPERATOR OR (Node.leaf NodeType.NUMBER T) (Node.leaf NodeType.NUMBER F))
      (Node.leaf NodeType.VARIABLE "y".toList))
    (by decide)

/-- C17 fails as stated on the line `(T`: the `(` left on the operator stack
becomes an operator node, and `execute` throws "Unknown operator: '('". -/
theorem C17_open_bracket_is_unknown_operator :
    generate_tree "(T".toList =
        some (Node.mk NodeType.OPERATOR LEFT_BRACKET Node.null (Node.leaf NodeType.NUMBER T)) ∧
      execute true "(T".toList Interp.fresh =
        some (Except.error (unknownOperator LEFT_BRACKET), Interp.fresh) ∧
      unknownOperator LEFT_BRACKET = "Unknown operator: '('".toList := by
  exact ⟨rfl, rfl, rfl⟩

/-! ## The stacks are not popped while empty -/

theorem reduce_ne_nil (op : Str) (nodes : List Node) : reduce op nodes ≠ [] := by
  simp [reduce]

theorem reduceBracket_ne_nil (op : Str) (nodes : List Node) : reduceBracket op nodes ≠ [] := by
  simp [reduceBracket]

theorem reduceWhileOperator_ne_nil (token : Str) (ops : List Str) :
    ∀ nodes : List Node, nodes ≠ [] → (reduceWhileOperator token ops nodes).2 ≠ [] := by
  induction ops with
  | nil => intro nodes h; simpa [reduceWhileOperator] using h
  | cons top ops ih =>
    intro nodes h
    simp only [reduceWhileOperator]
    split
    · exact ih _ (reduce_ne_nil top nodes)
    · exact h

theorem reduceWhileBracket_ne_nil (ops : List Str) :
    ∀ nodes : List Node, nodes ≠ [] → (reduceWhileBracket ops nodes).2 ≠ [] := by
  induction ops with
  | nil => intro nodes h; simpa [reduceWhileBracket] using h
  | cons top ops ih =>
    intro nodes h
    simp only [reduceWhileBracket]
    split
    · exact ih _ (reduceBracket_ne_nil top nodes)
    · exact h

theorem reduceAll_ne_nil (ops : List Str) :
    ∀ nodes : List Node, nodes ≠ [] → reduceAll ops nodes ≠ [] := by
  induction ops with
  | nil => intro nodes h; simpa [reduceAll] using h
  | cons top ops ih =>
    intro nodes h
    simp only [reduceAll]
    exact ih _ (reduce_ne_nil top nodes)

/-- One step of the `for` loop leaves the operand stack non-empty if it was so
before or if the token is an operand. -/
theorem parseToken_nodes_ne_nil {token : Str} {ops ops1 : List Str} {nodes nodes1 : List Node}
    (hs : parseToken token ops nodes = some (ops1, nodes1))
    (h : nodes ≠ [] ∨ is_sign token = true ∨ is_variable token = true) : nodes1 ≠ [] := by
  unfold parseToken at hs
  split at hs
  · simp only [Option.some.injEq, Prod.mk.injEq] at hs
    rw [← hs.2]
    simp
  · rename_i hsign
    split at hs
    · simp only [Option.some.injEq, Prod.mk.injEq] at hs
      rw [← hs.2]
      simp
    · rename_i hvar
      have hne : nodes ≠ [] := by
        rcases h with h | h | h
        · exact h
        · exact absurd h hsign
        · exact absurd h hvar
      split at hs
      · simp only [Option.some.injEq, Prod.mk.injEq] at hs
        rw [← hs.2]
        exact reduceWhileOperator_ne_nil token ops nodes hne
      · split at hs
        · simp only [Option.some.injEq, Prod.mk.injEq] at hs
          rw [← hs.2]
          exact hne
        · split at hs
          · have hb := reduceWhileBracket_ne_nil ops nodes hne
            split at hs
            · simp at hs
            · rename_i heq
              simp only [Option.some.injEq, Prod.mk.injEq] at hs
              rw [← hs.2]
              rw [heq] at hb
              exact hb
          · simp only [Option.some.injEq, Prod.mk.injEq] at hs
            rw [← hs.2]
            exact hne

theorem parseTokens_nodes_ne_nil (tokens : List Str) :
    ∀ {ops ops1 : List Str} {nodes nodes1 : List Node},
      parseTokens tokens ops nodes = some (ops1, nodes1) →
      (nodes ≠ [] ∨ ∃ t ∈ tokens, is_sign t = true ∨ is_variable t = true) → nodes1 ≠ [] := by
  induction tokens with
  | nil =>
    intro ops ops1 nodes nodes1 hs h
    simp only [parseTokens, Option.some.injEq, Prod.mk.injEq] at hs
    rw [← hs.2]
    rcases h with h | ⟨t, ht, _⟩
    · exact h
    · simp at ht
  | cons token tokens ih =>
    intro ops ops1 nodes nodes1 hs h
    simp only [parseTokens] at hs
    split at hs
    · simp at hs
    · rename_i s heq
      have heq2 : parseToken token ops nodes = some (s.1, s.2) := by simpa using heq
      by_cases hnow : nodes ≠ [] ∨ is_sign token = true ∨ is_variable token = true
      · exact ih hs (Or.inl (parseToken_nodes_ne_nil heq2 hnow))
      · refine ih hs (Or.inr ?_)
        rcases h with h | ⟨t, ht, htok⟩
        · exact absurd (Or.inl h) hnow
        · rcases List.mem_cons.mp ht with rfl | ht
          · exact absurd (Or.inr htok) hnow
          · exact ⟨t, ht, htok⟩

/-- The `for` loop is defined when no prefix of the tokens holds more `)` than
there are `(` on the operator stack and in the prefix together. -/
theorem parseTokens_some (tokens : List Str) :
    ∀ (ops : List Str) (nodes : List Node),
      (∀ n, (tokens.take n).count RIGHT_BRACKET ≤
        ops.count LEFT_BRACKET + (tokens.take n).count LEFT_BRACKET) →
      ∃ s, parseTokens tokens ops nodes = some s := by
  induction tokens with
  | nil => intro ops nodes _; exact ⟨_, rfl⟩
  | cons token tokens ih =>
    intro ops nodes h
    have hfirst : token = RIGHT_BRACKET → 0 < ops.count LEFT_BRACKET := by
      intro ht
      have h1 := h 1
      subst ht
      simp only [List.take_succ_cons, List.take_zero, List.count_cons, List.count_nil,
        beq_self_eq_true, if_true, beq_iff_eq,
        if_neg (show ¬ RIGHT_BRACKET = LEFT_BRACKET by decide)] at h1
      omega
    obtain ⟨⟨ops1, nodes1⟩, hs⟩ := parseToken_some token ops nodes hfirst
    have hc := parseToken_count hs
    have hrest : ∀ n, (tokens.take n).count RIGHT_BRACKET ≤
        ops1.count LEFT_BRACKET + (tokens.take n).count LEFT_BRACKET := by
      intro n
      have hn := h (n + 1)
      simp only [List.take_succ_cons, List.count_cons, beq_iff_eq] at hn
      omega
    obtain ⟨s, hs2⟩ := ih ops1 nodes1 hrest
    exact ⟨s, by simp only [parseTokens, hs]; exact hs2⟩

/-- C20. When no prefix of the tokens of a line holds more `)` than `(`, and
some token is a literal or a word, the `for` loop of `generate_tree` never pops
the empty operator stack, the operand stack is not empty after the final
reductions, and `generate_tree` returns a root node. -/
theorem C20_parsing_is_stack_safe (line : Str)
    (hpre : ∀ n, n ≤ (tokenize line).length →
      ((tokenize line).take n).count RIGHT_BRACKET ≤
        ((tokenize line).take n).count LEFT_BRACKET)
    (hoperand : ∃ t ∈ tokenize line, is_sign t = true ∨ is_variable t = true) :
    ∃ ops nodes tree, parseTokens (tokenize line) [] [] = some (ops, nodes) ∧
      reduceAll ops nodes ≠ [] ∧ (reduceAll ops nodes).head? = some tree ∧
      generate_tree line = some tree := by
  have hall : ∀ n, ((tokenize line).take n).count RIGHT_BRACKET ≤
      ([] : List Str).count LEFT_BRACKET + ((tokenize line).take n).count LEFT_BRACKET := by
    intro n
    simp only [List.count_nil, Nat.zero_add]
    by_cases hn : n ≤ (tokenize line).length
    · exact hpre n hn
    · have hlen := hpre (tokenize line).length (le_refl _)
      rw [List.take_of_length_le (by omega)]
      rw [List.take_of_length_le (le_refl _)] at hlen
      exact hlen
  obtain ⟨⟨ops, nodes⟩, hs⟩ := parseTokens_some (tokenize line) [] [] hall
  have hne := parseTokens_nodes_ne_nil (tokenize line) hs (Or.inr hoperand)
  have hall2 := reduceAll_ne_nil ops nodes hne
  rcases hred : reduceAll ops nodes with _ | ⟨top, rest⟩
  · exact absurd hred hall2
  · refine ⟨ops, nodes, top, hs, ?_, ?_, ?_⟩
    · rw [hred]; simp
    · rw [hred]; rfl
    · simp [generate_tree, parse, hs, hred]

/-- C20 on the line `(T | F) & y`. -/
theorem C20_parsing_is_stack_safe_witness :
    ∃ ops nodes tree, parseTokens (tokenize "(T | F) & y".toList) [] [] = some (ops, nodes) ∧
      reduceAll ops nodes ≠ [] ∧ (reduceAll ops nodes).head? = some tree ∧
      generate_tree "(T | F) & y".toList = some tree :=
  C20_parsing_is_stack_safe "(T | F) & y".toList (by decide) ⟨T, by decide, by decide⟩

/-! ## Printing a tree and parsing it again -/

theorem showNode_operator (c : Char) (left right : Node) :
    showNode (Node.mk NodeType.OPERATOR [c] left right) =
      '(' :: (showNode left ++ ' ' :: c :: ' ' :: (showNode right ++ [')'])) := by
  simp [showNode]

/-- The text of a tree, followed by the end of the line or by a character that
is not alphanumeric, is split into the tokens of the tree. -/
theorem tokenize_showNode (e : Node) :
    e.IsBinaryExpr → ∀ rest : Str, (∀ c ∈ rest.head?, isalnum c = false) →
      tokenize (showNode e ++ rest) = nodeTokens e ++ tokenize rest := by
  induction e with
  | null => intro h; exact absurd h id
  | mk type value left right ihl ihr =>
    intro h rest hrest
    cases type with
    | NUMBER =>
      obtain ⟨hv, -, -⟩ := h
      have hword : is_variable value = true := by rcases hv with rfl | rfl <;> decide
      have hlet : value.take 3 ≠ VAR := by rcases hv with rfl | rfl <;> decide
      simp only [showNode, nodeTokens]
      exact tokenize_word value rest hword hlet hrest
    | VARIABLE =>
      obtain ⟨hword, -, hlet, -, -⟩ := h
      simp only [showNode, nodeTokens]
      exact tokenize_word value rest hword hlet hrest
    | OPERATOR =>
      obtain ⟨hop, hl, hr⟩ := h
      have key : ∀ c : Char, isspace c = false → isalpha c = false →
          tokenize (showNode (Node.mk NodeType.OPERATOR [c] left right) ++ rest) =
            nodeTokens (Node.mk NodeType.OPERATOR [c] left right) ++ tokenize rest := by
        intro c hcs hca
        have h1 : showNode (Node.mk NodeType.OPERATOR [c] left right) ++ rest =
            '(' :: (showNode left ++ ' ' :: c :: ' ' :: (showNode right ++ ')' :: rest)) := by
          rw [showNode_operator]
          simp
        rw [h1, tokenize_symbol _ _ (by decide) (by decide),
          ihl hl _ (by simp [isalnum, isalpha]), tokenize_space _ _ (by decide),
          tokenize_symbol _ _ hcs hca, tokenize_space _ _ (by decide),
          ihr hr _ (by simp [isalnum, isalpha]), tokenize_symbol _ _ (by decide) (by decide)]
        simp [nodeTokens, LEFT_BRACKET, RIGHT_BRACKET]
      rcases hop with rfl | rfl | rfl
      · exact key '&' (by decide) (by decide)
      · exact key '|' (by decide) (by decide)
      · exact key '=' (by decide) (by decide)

theorem reduceWhileOperator_LEFT_BRACKET (op : Str) (ops : List Str) (nodes : List Node) :
    reduceWhileOperator op (LEFT_BRACKET :: ops) nodes = (LEFT_BRACKET :: ops, nodes) := rfl

/-- The parser, on the tokens of a tree followed by more tokens, pushes the
tree on the operand stack, leaves the operator stack as it was, and goes on
with the tokens that follow. -/
theorem parseTokens_nodeTokens (e : Node) :
    e.IsBinaryExpr → ∀ (more ops : List Str) (nodes : List Node),
      parseTokens (nodeTokens e ++ more) ops nodes = parseTokens more ops (e :: nodes) := by
  induction e with
  | null => intro h; exact absurd h id
  | mk type value left right ihl ihr =>
    intro h more ops nodes
    cases type with
    | NUMBER =>
      obtain ⟨hv, rfl, rfl⟩ := h
      simp only [nodeTokens, List.cons_append, List.nil_append, parseTokens,
        parseToken_literal value hv]
      rfl
    | VARIABLE =>
      obtain ⟨hword, hsign, -, rfl, rfl⟩ := h
      simp only [nodeTokens, List.cons_append, List.nil_append, parseTokens,
        parseToken_variable value _ _ hsign hword]
      rfl
    | OPERATOR =>
      obtain ⟨hop, hl, hr⟩ := h
      have hop4 : value = AND ∨ value = OR ∨ value = EQ ∨ value = NOT := by
        rcases hop with h | h | h
        · exact Or.inl h
        · exact Or.inr (Or.inl h)
        · exact Or.inr (Or.inr (Or.inl h))
      have h1 : nodeTokens (Node.mk NodeType.OPERATOR value left right) ++ more =
          LEFT_BRACKET :: (nodeTokens left ++
            value :: (nodeTokens right ++ RIGHT_BRACKET :: more)) := by
        simp [nodeTokens]
      rw [h1]
      simp only [parseTokens, parseToken_LEFT_BRACKET]
      rw [ihl hl]
      simp only [parseTokens, parseToken_operator value _ _ hop4,
        reduceWhileOperator_LEFT_BRACKET]
      rw [ihr hr]
      simp only [parseTokens, parseToken_RIGHT_BRACKET]
      rcases hop with rfl | rfl | rfl <;> rfl

/-- C19. For a tree `e` built from literal leaves, variable leaves (words other
than `T` and `F` that do not begin with `let`) and nodes of `&`, `|`, `=` with
both children, `generate_tree` on the text of `e` returns `e`. -/
theorem C19_print_then_parse_round_trip (e : Node) (he : e.IsBinaryExpr) :
    generate_tree (showNode e) = some e := by
  have ht := tokenize_showNode e he [] (by simp)
  have hp := parseTokens_nodeTokens e he [] [] []
  simp only [List.append_nil, tokenize_nil] at ht hp
  simp [generate_tree, parse, ht, hp, parseTokens, reduceAll]

/-- C19 on the tree of `((x = T) & (y | F))`. -/
theorem C19_print_then_parse_round_trip_witness :
    generate_tree (showNode
      (Node.mk NodeType.OPERATOR AND
        (Node.mk NodeType.OPERATOR EQ (Node.leaf NodeType.VARIABLE "x".toList)
          (Node.leaf NodeType.NUMBER T))
        (Node.mk NodeType.OPERATOR OR (Node.leaf NodeType.VARIABLE "y".toList)
          (Node.leaf NodeType.NUMBER F)))) =
      some (Node.mk NodeType.OPERATOR AND
        (Node.mk NodeType.OPERATOR EQ (Node.leaf NodeType.VARIABLE "x".toList)
          (Node.leaf NodeType.NUMBER T))
        (Node.mk NodeType.OPERATOR OR (Node.leaf NodeType.VARIABLE "y".toList)
          (Node.leaf NodeType.NUMBER F))) :=
  C19_print_then_parse_round_trip _ (by
    simp only [Node.IsBinaryExpr, Node.leaf]
    decide)

end BooleanLogicInterpreter
